import Mathlib

/-!
Verification of the DazzleSwitch slot/selection engine
(`web/main.js`, Phase-4 revision — the last of the three revisions in the
file, which is the one all spec claims reference).

The JavaScript is shallowly embedded: a node's mutable UI state (the
`input_XX` slots, the per-node label cache `_dsLabelCache`, the name map
`_dsNameMap`, and the `select` dropdown widget's options/value) is a
`NodeState` record, and each JS function becomes a pure Lean function on
it.  JS objects used as string-keyed dictionaries become association
lists updated in insertion order; JS truthiness of label strings
(`undefined`/`""` are falsy) is modelled explicitly.
-/

namespace DazzleSwitch

/-! ### Constants (main.js lines 815-820) -/

def MIN_INPUT_SLOTS : Nat := 3

def STABILIZE_DEBOUNCE_MS : Nat := 64

def TYPE_WALK_MAX_DEPTH : Nat := 10

/-- Sentinel dropdown value `'(none)'`. -/
def NONE_SELECTION : String := "(none)"

/-- Sentinel dropdown value `'(none connected)'`. -/
def NO_CONNECTIONS : String := "(none connected)"

/-! ### Slot names and the managed-slot pattern `INPUT_SLOT_RE` -/

/-- The test `INPUT_SLOT_RE.test(name)` for `/^input_(\d{2})$/`:
    the literal `input_` followed by exactly two digits. -/
def isManagedName (s : String) : Bool :=
  match s.toList with
  | ['i', 'n', 'p', 'u', 't', '_', a, b] => a.isDigit && b.isDigit
  | _ => false

/-- `parseInt(m[1], 10)` for a name matching `INPUT_SLOT_RE`:
    the two-digit suffix as a number (`none` when the regex fails). -/
def managedNum (s : String) : Option Nat :=
  match s.toList with
  | ['i', 'n', 'p', 'u', 't', '_', a, b] =>
    if a.isDigit && b.isDigit then some (10 * (a.toNat - 48) + (b.toNat - 48)) else none
  | _ => none

/-- `String(n).padStart(2, '0')`: decimal digits, left-padded to width two
    (numbers of three or more digits are unchanged). -/
def pad2 (n : Nat) : String :=
  if n < 10 then "0" ++ toString n else toString n

/-- The name template `` `input_${String(n).padStart(2, '0')}` ``. -/
def mkInputName (n : Nat) : String :=
  "input_" ++ pad2 n

/-! ### JS string-keyed dictionaries as association lists -/

/-- First-match lookup (`obj[k]`, `undefined` ↦ `none`). -/
def lookupKey (m : List (String × String)) (k : String) : Option String :=
  match m with
  | [] => none
  | (k', v) :: rest => if k' = k then some v else lookupKey rest k

/-- Assignment `obj[k] = v`: an existing key keeps its insertion position,
    a new key is appended (JS property-order semantics). -/
def setKey (m : List (String × String)) (k v : String) : List (String × String) :=
  match m with
  | [] => [(k, v)]
  | (k', v') :: rest => if k' = k then (k, v) :: rest else (k', v') :: setKey rest k v

/-- JS truthiness of an optional label string: `undefined` and `""` are falsy. -/
def truthy : Option String → Bool
  | none => false
  | some s => s ≠ ""

/-! ### Data model -/

/-- One LiteGraph input slot as the extension reads and writes it:
    `name`, the optional user `label` (absent = `undefined`), the incoming
    `link` id (absent = disconnected), and the `_dsLabelWatched` flag set by
    `installLabelWatcher`.  (All slots are created with type `"*"`, which the
    embedded functions never read, so the type field is omitted.) -/
structure Slot where
  name : String
  label : Option String
  link : Option Nat
  watched : Bool
deriving DecidableEq, Repr

/-- The per-node state the extension mutates: `node.inputs`,
    `node._dsLabelCache`, `node._dsNameMap`, and the `select` widget's
    `options.values` / `value`. -/
@[ext]
structure NodeState where
  inputs : List Slot
  labelCache : List (String × String)
  nameMap : List (String × String)
  selOptions : List String
  selValue : String
deriving DecidableEq, Repr

/-! ### Slot management (main.js lines 860-975) -/

/-- `getInputLabel(input)`: `input.label || input.name`. -/
def getInputLabel (s : Slot) : String :=
  match s.label with
  | some l => if l ≠ "" then l else s.name
  | none => s.name

/-- `countInputSlots(node)`: how many `input_XX` slots the node has. -/
def countInputSlots (inputs : List Slot) : Nat :=
  inputs.countP (fun s => isManagedName s.name)

/-- `getHighestInputNumber(node)`: running max of the two-digit suffixes. -/
def getHighestInputNumber (inputs : List Slot) : Nat :=
  inputs.foldl
    (fun h s => match managedNum s.name with
      | some n => max h n
      | none => h) 0

/-- The conditional cache write performed just before a slot's removal:
    `if (input.label && node._dsLabelCache) { node._dsLabelCache[input.name]
    = input.label; }` (a falsy — absent or empty — label writes nothing). -/
def cacheWriteForLabel (cache : List (String × String)) (name : String)
    (label : Option String) : List (String × String) :=
  match label with
  | some l => if l ≠ "" then setKey cache name l else cache
  | none => cache

/-- The backward removal loop of `removeUnusedInputsFromEnd`, acting on the
    reversed slot list so that "walk backward" is structural recursion.
    At each step the JS recomputes `countInputSlots` on the current array;
    since every slot already passed over was a kept non-`input_XX` slot,
    that count equals the managed count of the part still to process, which
    is what `countInputSlots` is applied to here.  Removal of an (always
    unconnected) slot is plain deletion; `continue` keeps the slot, `break`
    keeps the whole remainder.  Returns the surviving reversed slots and
    the updated label cache. -/
def shrinkGo (r : List Slot) (cache : List (String × String)) :
    List Slot × List (String × String) :=
  match r with
  | [] => ([], cache)
  | s :: rest =>
    if !isManagedName s.name then
      -- continue
      (s :: (shrinkGo rest cache).1, (shrinkGo rest cache).2)
    else if countInputSlots (s :: rest) ≤ MIN_INPUT_SLOTS then
      -- stop removing if we'd go below minimum
      (s :: rest, cache)
    else if s.link.isSome then
      -- stop at the first connected slot
      (s :: rest, cache)
    else
      -- cache label before removal, then node.removeInput(i)
      shrinkGo rest (cacheWriteForLabel cache s.name s.label)

/-- `removeUnusedInputsFromEnd(node)` (shrink phase). -/
def removeUnusedInputsFromEnd (st : NodeState) : NodeState :=
  { st with inputs := (shrinkGo st.inputs.reverse st.labelCache).1.reverse,
            labelCache := (shrinkGo st.inputs.reverse st.labelCache).2 }

/-- The label written by `addInput` + cache restoration: `addInput(name,"*")`
    leaves `label` undefined, then a truthy cached entry is applied. -/
def restoredLabel (cache : List (String × String)) (name : String) : Option String :=
  match lookupKey cache name with
  | some l => if l ≠ "" then some l else none
  | none => none

/-- `addBufferInputIfNeeded(node)` (grow phase): if the last `input_XX`
    slot is connected, append `input_{highest+1}` with the cached label
    restored. -/
def addBufferInputIfNeeded (st : NodeState) : NodeState :=
  match st.inputs.reverse.find? (fun s => isManagedName s.name) with
  | none => st
  | some lastInputSlot =>
    if lastInputSlot.link.isSome then
      let nextNum := getHighestInputNumber st.inputs + 1
      let name := mkInputName nextNum
      { st with inputs := st.inputs ++
          [{ name := name, label := restoredLabel st.labelCache name,
             link := none, watched := false }] }
    else st

/-- `watchInputLabels(node)`: install the label watcher on every `input_XX`
    slot (re-installation is a no-op thanks to `_dsLabelWatched`). -/
def watchSlot (s : Slot) : Slot :=
  if isManagedName s.name then { s with watched := true } else s

def watchInputLabels (st : NodeState) : NodeState :=
  { st with inputs := st.inputs.map watchSlot }

/-! ### Dropdown widget (main.js lines 1129-1209) -/

/-- `buildConnectedInputInfo(node)`: display labels of connected `input_XX`
    slots in slot order, plus the label → internal-name map. -/
def buildConnectedInputInfo (inputs : List Slot) :
    List String × List (String × String) :=
  inputs.foldl
    (fun (acc : List String × List (String × String)) s =>
      if isManagedName s.name && s.link.isSome then
        let displayLabel := getInputLabel s
        (acc.1 ++ [displayLabel], setKey acc.2 displayLabel s.name)
      else acc)
    ([], [])

/-- The value-preservation chain of `updateSelectWidget` for a non-empty
    label list: keep `(none)`, keep a still-connected selection, auto-select
    `labels[0]` on first connection, otherwise keep the stale value. -/
def selNextValue (labels : List String) (previousValue : String) : String :=
  if previousValue = NONE_SELECTION then NONE_SELECTION
  else if labels.contains previousValue then previousValue
  else if previousValue = NO_CONNECTIONS then labels.headD ""
  else previousValue

/-- `updateSelectWidget(node)`: rebuild `options.values` and preserve or
    auto-select the widget value, storing the fresh name map. -/
def updateSelectWidget (st : NodeState) : NodeState :=
  if (buildConnectedInputInfo st.inputs).1.isEmpty then
    { st with nameMap := (buildConnectedInputInfo st.inputs).2,
              selOptions := [NO_CONNECTIONS], selValue := NO_CONNECTIONS }
  else
    { st with nameMap := (buildConnectedInputInfo st.inputs).2,
              selOptions := NONE_SELECTION :: (buildConnectedInputInfo st.inputs).1,
              selValue := selNextValue (buildConnectedInputInfo st.inputs).1 st.selValue }

/-! ### Stabilize cycle (main.js lines 1225-1244)

`stabilize` runs shrink, grow, watcher installation and the dropdown
rebuild in that order.  Its remaining steps only touch state outside
`NodeState`: step 5 recomputes the *output* slot's display type with
`getSelectedInputType`/`updateOutputType` (embedded separately below over
the connection graph) and step 6 marks the canvas dirty; neither reads or
writes the input slots, the label cache, the name map or the dropdown. -/

def stabilize (st : NodeState) : NodeState :=
  updateSelectWidget (watchInputLabels (addBufferInputIfNeeded (removeUnusedInputsFromEnd st)))

/-! ### serializeValue (main.js lines 1520-1528) -/

/-- The `select` widget's `serializeValue` override: sentinels pass through,
    otherwise `nameMap[value] || value`. -/
def serializeValue (nameMap : List (String × String)) (value : String) : String :=
  if value = NONE_SELECTION || value = NO_CONNECTIONS then value
  else match lookupKey nameMap value with
    | some n => if n ≠ "" then n else value
    | none => value

/-! ### The external connection graph (LiteGraph view used by main.js) -/

/-- One `graph.links[id]` record, as read and written by the extension. -/
structure LinkRec where
  origin_id : Nat
  origin_slot : Nat
  target_id : Nat
  target_slot : Nat
deriving DecidableEq, Repr

/-- A graph node, reduced to what `followConnectionUntilType` reads: the
    incoming link id of each input slot (`none` = disconnected) and the
    declared type string of each output slot. -/
structure GNode where
  inputs : List (Option Nat)
  outputs : List String
deriving DecidableEq, Repr

/-- The graph: `graph.getNodeById` and `graph.links` as keyed stores. -/
structure Graph where
  nodes : List (Nat × GNode)
  links : List (Nat × LinkRec)
deriving DecidableEq, Repr

/-- First-match lookup in a Nat-keyed store. -/
def lookupAssoc {β : Type} (m : List (Nat × β)) (k : Nat) : Option β :=
  match m with
  | [] => none
  | (k', v) :: rest => if k' = k then some v else lookupAssoc rest k

/-- In-place mutation `graph.links[lid].target_slot = i`; a missing id
    leaves the store unchanged, matching the JS `if (link)` guard. -/
def setLinkTarget (links : List (Nat × LinkRec)) (lid : Nat) (i : Nat) :
    List (Nat × LinkRec) :=
  links.map fun kv => if kv.1 = lid then (kv.1, { kv.2 with target_slot := i }) else kv

/-! ### Slot reordering (main.js lines 1442-1494) -/

/-- Step 3 of `moveInputSlot`: rename all `input_XX` slots sequentially by
    their new position (`inputNum` starts at 1 and only advances on managed
    slots), collecting the `nameRemap` entries (recorded only when the name
    actually changes, in iteration order). -/
def renameGo : List Slot → Nat → List Slot × List (String × String)
  | [], _ => ([], [])
  | s :: rest, k =>
    if isManagedName s.name then
      ({ s with name := mkInputName k } :: (renameGo rest (k + 1)).1,
       if s.name ≠ mkInputName k then
         (s.name, mkInputName k) :: (renameGo rest (k + 1)).2
       else (renameGo rest (k + 1)).2)
    else
      (s :: (renameGo rest k).1, (renameGo rest k).2)

/-- Step 4 of `moveInputSlot`: rebuild the label cache with every key sent
    through `nameRemap[key] || key`, in cache insertion order. -/
def rekeyCache (cache remap : List (String × String)) : List (String × String) :=
  if remap.isEmpty then cache
  else cache.foldl (fun acc kv => setKey acc ((lookupKey remap kv.1).getD kv.1) kv.2) []

/-- One iteration of `moveInputSlot` step 5: if the input at index `p.1` is
    connected, set its link's recorded `target_slot` to that index. -/
def patchStep (acc : List (Nat × LinkRec)) (p : Nat × Slot) : List (Nat × LinkRec) :=
  match p.2.link with
  | some lid => setLinkTarget acc lid p.1
  | none => acc

/-- Step 5 of `moveInputSlot`: for every input with a link, set that link's
    recorded `target_slot` to the input's current index. -/
def patchTargets (links : List (Nat × LinkRec)) (inputs : List Slot) :
    List (Nat × LinkRec) :=
  inputs.enum.foldl patchStep links

/-- Step 2 of `moveInputSlot`: `inputs.splice(toIndex, 0,
    inputs.splice(fromIndex, 1)[0])` — remove the slot `x` at `fromIdx`,
    then insert it into the shortened array.  `Array.prototype.splice`
    clamps the insertion index to the array length, so an index past the
    end appends. -/
def splicedInputs (st : NodeState) (fromIdx toIdx : Nat) (x : Slot) : List Slot :=
  (st.inputs.eraseIdx fromIdx).insertIdx
    (min toIdx (st.inputs.eraseIdx fromIdx).length) x

/-- Steps 2-5 of `moveInputSlot(node, fromIndex, toIndex)`: splice, renumber,
    re-key the cache, patch link targets.  The out-of-range `fromIndex`
    guard stands in for the UI's "only called with an existing slot's
    index" contract. -/
def moveInputSlotCore (st : NodeState) (links : List (Nat × LinkRec))
    (fromIdx toIdx : Nat) : NodeState × List (Nat × LinkRec) :=
  match st.inputs.get? fromIdx with
  | none => (st, links)
  | some x =>
    let renamed := (renameGo (splicedInputs st fromIdx toIdx x) 1).1
    let remap := (renameGo (splicedInputs st fromIdx toIdx x) 1).2
    ({ st with inputs := renamed, labelCache := rekeyCache st.labelCache remap },
     patchTargets links renamed)

/-- `moveInputSlot`: early-out on `fromIndex === toIndex`, then the core
    steps 2-5, then step 6 re-runs `stabilize`.  (Step 1, cancelling the
    pending debounce timer, lives in the scheduler model below.) -/
def moveInputSlot (st : NodeState) (links : List (Nat × LinkRec))
    (fromIdx toIdx : Nat) : NodeState × List (Nat × LinkRec) :=
  if fromIdx = toIdx then (st, links)
  else
    (stabilize (moveInputSlotCore st links fromIdx toIdx).1,
     (moveInputSlotCore st links fromIdx toIdx).2)

/-! ### Type detection (main.js lines 1036-1078)

`followConnectionUntilType(graph, node, slotIndex, visited, depth)` recurses
with `depth + 1` and returns `"*"` once `depth >= TYPE_WALK_MAX_DEPTH`, so
the recursion depth is bounded by `TYPE_WALK_MAX_DEPTH - depth`; the
embedding recurses structurally on that remaining budget (`fuel`).  The
`visited` set of link ids is threaded through exactly as the JS mutates its
per-call `Set`, including across the iterations of the inner
"try each connected input of the source" loop. -/

/-- The inner loop of `followConnectionUntilType`: try each connected input
    slot of the wildcard source in order, stopping at the first non-`"*"`
    result; `follow1` is the recursive call at `depth + 1`. -/
def tryInputsWith (follow1 : Nat → List Nat → String × List Nat) :
    List (Option Nat) → Nat → List Nat → String × List Nat
  | [], _, visited => ("*", visited)
  | none :: rest, i, visited => tryInputsWith follow1 rest (i + 1) visited
  | some _ :: rest, i, visited =>
    let (r, v') := follow1 i visited
    if r = "*" then tryInputsWith follow1 rest (i + 1) v' else (r, v')

/-- `followConnectionUntilType` with `fuel = TYPE_WALK_MAX_DEPTH - depth`. -/
def followAux (g : Graph) : Nat → GNode → Nat → List Nat → String × List Nat
  | 0, _, _, visited => ("*", visited)
  | fuel + 1, node, slotIndex, visited =>
    match node.inputs.get? slotIndex with
    | none => ("*", visited)
    | some none => ("*", visited)
    | some (some lid) =>
      if visited.contains lid then ("*", visited)
      else
        let visited' := lid :: visited
        match lookupAssoc g.links lid with
        | none => ("*", visited')
        | some linkInfo =>
          match lookupAssoc g.nodes linkInfo.origin_id with
          | none => ("*", visited')
          | some sourceNode =>
            match sourceNode.outputs.get? linkInfo.origin_slot with
            | none => ("*", visited')
            | some sourceType =>
              if sourceType ≠ "" && sourceType ≠ "*" then (sourceType, visited')
              else
                tryInputsWith (fun i v => followAux g fuel sourceNode i v)
                  sourceNode.inputs 0 visited'

/-- `followConnectionUntilType(graph, node, slotIndex, visited, depth)`. -/
def followConnectionUntilType (g : Graph) (node : GNode) (slotIndex : Nat)
    (visited : List Nat) (depth : Nat) : String × List Nat :=
  followAux g (TYPE_WALK_MAX_DEPTH - depth) node slotIndex visited

/-! ### The debounce scheduler (main.js lines 838-856, 1446-1451)

`scheduleStabilize` cancels the node's pending timer and arms a fresh
64 ms one; `moveInputSlot` step 1 cancels it; the timer's expiry deletes
the map entry and runs `stabilize`.  main.js installs no node-destroy
handler (`onRemoved` is never hooked), so destroying the node changes
nothing about the armed timer — the `WeakMap` only lets the *map entry* be
collected; the armed `setTimeout` callback still holds the node and runs.
The model records whether a timer callback ever ran `stabilize` on a
destroyed node. -/

inductive SchedEvent where
  | schedule  -- scheduleStabilize(node): clearTimeout(existing) + setTimeout
  | destroy   -- host removes the node (no handler in main.js reacts)
  | reorder   -- moveInputSlot step 1: clearTimeout + delete
  | timeout   -- the armed debounce timer expires: delete entry, stabilize(node)
deriving DecidableEq, Repr

structure SchedState where
  nodeAlive : Bool
  timerPending : Bool
  firedWhileDead : Bool
deriving DecidableEq, Repr

def schedStep (s : SchedState) : SchedEvent → SchedState
  | .schedule => { s with timerPending := true }
  | .destroy => { s with nodeAlive := false }
  | .reorder => { s with timerPending := false }
  | .timeout =>
    if s.timerPending then
      { s with timerPending := false,
               firedWhileDead := s.firedWhileDead || !s.nodeAlive }
    else s

def schedRun (s : SchedState) (evs : List SchedEvent) : SchedState :=
  evs.foldl schedStep s

/-! ### Execution-time selection, sequential mode

The Python backend (`py/node.py`) is not part of this snapshot — only its
callers and the repository documentation describe it — so the sequential
fallback is modelled from the spec. -/

/-- The highest identity among the sparse connected keys. -/
def maxConnectedKey (connected : List (Nat × String)) : Nat :=
  connected.foldl (fun h p => max h p.1) 0

/-- First-match lookup of a connected identity's value. -/
def lookupConnected (connected : List (Nat × String)) (k : Nat) : Option String :=
  match connected with
  | [] => none
  | (k', v) :: rest => if k' = k then some v else lookupConnected rest k

/-- Modelled from the spec: `_build_full_slot_range()` of the missing
    Python backend — "the contiguous identity sequence from 1 to
    max(highest connected identity, highest requested identity)", built
    because the sparse `connected` map omits disconnected slots. -/
def buildFullSlotRange (connected : List (Nat × String)) (requested : Nat) :
    List Nat :=
  List.range' 1 (max (maxConnectedKey connected) requested)

/-- Modelled from the spec: the `mode=sequential` fallback of the missing
    Python backend — "starting just after the position implied by the last
    attempted target, scan forward through fullSlotRange, wrapping around
    to the beginning, and return the first identity present in
    `connected`" (the attempted position itself is reached last).  Returns
    the value and its 1-based index, or `none` when nothing is connected. -/
def sequentialResolve (connected : List (Nat × String)) (attempted : Nat) :
    Option (String × Nat) :=
  let n := max (maxConnectedKey connected) attempted
  let order := List.range' (attempted + 1) (n - attempted) ++ List.range' 1 attempted
  order.findSome? fun i => (lookupConnected connected i).map fun v => (v, i)

/-! ### Derived notions used to state the properties -/

/-- Max of a list of naturals (0 when empty). -/
def maxList (l : List Nat) : Nat := l.foldr max 0

/-- The per-slot contribution to `getHighestInputNumber`. -/
def slotNum (s : Slot) : Option Nat := managedNum s.name

/-- The slot `addBufferInputIfNeeded` appends when the last managed slot is
    connected. -/
def newBufferSlot (st : NodeState) : Slot :=
  { name := mkInputName (getHighestInputNumber st.inputs + 1),
    label := restoredLabel st.labelCache
      (mkInputName (getHighestInputNumber st.inputs + 1)),
    link := none, watched := false }

/-- The number of consecutive unconnected `input_XX` slots at the tail of
    the managed subsequence (the "buffer" region). -/
def trailingUnconnected (inputs : List Slot) : Nat :=
  (((inputs.reverse.filter fun s => isManagedName s.name).takeWhile
    fun s => !s.link.isSome)).length

/-- The positional payload of a slot: everything except its (renumbered)
    identity. -/
def slotData (s : Slot) : Option String × Option Nat × Bool :=
  (s.label, s.link, s.watched)

/-- The operations of the floor-invariant claim: debounced/explicit
    stabilize passes and context-menu slot moves (the link store does not
    influence the slot count, which `moveInputSlot` only writes to). -/
inductive NodeOp where
  | stab : NodeOp
  | move (fromIdx toIdx : Nat) : NodeOp

def applyOp (st : NodeState) : NodeOp → NodeState
  | .stab => stabilize st
  | .move fromIdx toIdx => (moveInputSlot st [] fromIdx toIdx).1

def runOps (st : NodeState) (ops : List NodeOp) : NodeState :=
  ops.foldl applyOp st

/-! ### Concrete states used as witnesses and counterexamples -/

/-- A freshly created node: the three declared `input_XX` slots, nothing
    connected, caches empty, placeholder dropdown. -/
def initialNode : NodeState :=
  ⟨[⟨"input_01", none, none, false⟩, ⟨"input_02", none, none, false⟩,
    ⟨"input_03", none, none, false⟩], [], [], [NO_CONNECTIONS], NO_CONNECTIONS⟩

/-- A node whose three declared slots are all connected (links 1-3). -/
def connectedNode : NodeState :=
  ⟨[⟨"input_01", none, some 1, false⟩, ⟨"input_02", none, some 2, false⟩,
    ⟨"input_03", none, some 3, false⟩], [], [], [NO_CONNECTIONS], NO_CONNECTIONS⟩

/-- A node sitting at the two-digit naming ceiling: `input_97`-`input_99`,
    all connected. -/
def ceilingNode : NodeState :=
  ⟨[⟨"input_97", none, some 1, false⟩, ⟨"input_98", none, some 2, false⟩,
    ⟨"input_99", none, some 3, false⟩], [], [], [NO_CONNECTIONS], NO_CONNECTIONS⟩

/-- A node with a user-labelled trailing slot about to be shrunk away:
    `input_04` carries the label `"LoRA Style"` and is disconnected. -/
def labeledNode : NodeState :=
  ⟨[⟨"input_01", none, some 1, false⟩, ⟨"input_02", none, some 2, false⟩,
    ⟨"input_03", none, some 3, false⟩, ⟨"input_04", some "LoRA Style", none, false⟩],
   [], [], [NO_CONNECTIONS], NO_CONNECTIONS⟩

/-- A node whose selected slot (`input_02`, labelled `"B"`) has just been
    disconnected while `input_01` remains connected: the widget keeps the
    stale value `"B"`. -/
def staleNode : NodeState :=
  ⟨[⟨"input_01", some "A", some 1, true⟩, ⟨"input_02", some "B", none, true⟩,
    ⟨"input_03", none, none, true⟩], [], [("A", "input_01")],
   [NONE_SELECTION, "A"], "B"⟩

/-- A three-slot node with labels `A`/`B`/`C` and links 1-3, about to have
    its third slot moved to the front. -/
def moveNode : NodeState :=
  ⟨[⟨"input_01", some "A", some 1, true⟩, ⟨"input_02", some "B", some 2, true⟩,
    ⟨"input_03", some "C", some 3, true⟩], [("input_03", "OLD")], [],
   [NONE_SELECTION, "A", "B", "C"], NONE_SELECTION⟩

/-- The link store matching `moveNode`: three links from node 9 into node 5. -/
def moveLinks : List (Nat × LinkRec) :=
  [(1, ⟨9, 0, 5, 0⟩), (2, ⟨9, 1, 5, 1⟩), (3, ⟨9, 2, 5, 2⟩)]

/-- Type-walk fixture: the switch's slot 0 is fed (link 10) by wildcard
    node 1, which is fed (link 11) by wildcard node 2, which is fed
    (link 12) by node 3 whose output type is `MODEL` — a concretely-typed
    producer at walk depth 3. -/
def chainGraph : Graph :=
  { nodes := [(1, ⟨[some 11], ["*"]⟩), (2, ⟨[some 12], ["*"]⟩), (3, ⟨[], ["MODEL"]⟩)],
    links := [(10, ⟨1, 0, 0, 0⟩), (11, ⟨2, 0, 1, 0⟩), (12, ⟨3, 0, 2, 0⟩)] }

def chainStart : GNode := ⟨[some 10], ["*"]⟩

/-- Type-walk fixture: the start node is fed (link 1) by wildcard node 1,
    fed (link 2) by wildcard node 2, fed (link 3) by node 1 again — a cycle
    of all-wildcard nodes. -/
def cycleGraph : Graph :=
  { nodes := [(1, ⟨[some 2], ["*"]⟩), (2, ⟨[some 3], ["*"]⟩)],
    links := [(1, ⟨1, 0, 0, 0⟩), (2, ⟨2, 0, 1, 0⟩), (3, ⟨1, 0, 2, 0⟩)] }

def cycleStart : GNode := ⟨[some 1], ["*"]⟩

/-! ## Basic lemmas -/

theorem lookupKey_setKey_self (m : List (String × String)) (k v : String) :
    lookupKey (setKey m k v) k = some v := by
  induction m with
  | nil => simp [setKey, lookupKey]
  | cons kv rest ih =>
    by_cases h : kv.1 = k
    · simp [setKey, h, lookupKey]
    · simp [setKey, h, lookupKey, ih]

theorem lookupKey_setKey_ne (m : List (String × String)) (k k' v : String)
    (h : k' ≠ k) : lookupKey (setKey m k' v) k = lookupKey m k := by
  induction m with
  | nil => simp [setKey, lookupKey, h]
  | cons kv rest ih =>
    by_cases h2 : kv.1 = k'
    · simp [setKey, h2, lookupKey, h]
    · simp [setKey, h2, lookupKey, ih]

theorem setKey_eq_of_lookup (m : List (String × String)) (k v : String)
    (h : lookupKey m k = some v) : setKey m k v = m := by
  induction m with
  | nil => simp [lookupKey] at h
  | cons kv rest ih =>
    by_cases h2 : kv.1 = k
    · simp only [lookupKey, h2, if_pos] at h
      simp only [setKey, h2, if_pos]
      cases h
      rw [← h2]
    · simp only [lookupKey, h2, if_neg, Ne, not_false_iff] at h
      simp [setKey, h2, ih h]

theorem isManagedName_mkInputName {n : Nat} (h : n ≤ 99) :
    isManagedName (mkInputName n) = true := by
  have key : ∀ m, m < 100 → isManagedName (mkInputName m) = true := by decide
  exact key n (by omega)

theorem watchSlot_name (s : Slot) : (watchSlot s).name = s.name := by
  unfold watchSlot; split <;> rfl

theorem watchSlot_label (s : Slot) : (watchSlot s).label = s.label := by
  unfold watchSlot; split <;> rfl

theorem watchSlot_link (s : Slot) : (watchSlot s).link = s.link := by
  unfold watchSlot; split <;> rfl

theorem watchSlot_idem (s : Slot) : watchSlot (watchSlot s) = watchSlot s := by
  by_cases h : isManagedName s.name
  · have h1 : watchSlot s = { s with watched := true } := by
      unfold watchSlot; rw [if_pos h]
    rw [h1]
    unfold watchSlot
    have h2 : isManagedName (Slot.name { s with watched := true }) = true := h
    rw [if_pos h2]
  · have h1 : watchSlot s = s := by unfold watchSlot; rw [if_neg h]
    rw [h1, h1]

theorem countInputSlots_reverse (l : List Slot) :
    countInputSlots l.reverse = countInputSlots l :=
  List.countP_reverse _ _

theorem countInputSlots_map_watch (l : List Slot) :
    countInputSlots (l.map watchSlot) = countInputSlots l := by
  unfold countInputSlots
  rw [List.countP_eq_length_filter, List.countP_eq_length_filter, List.filter_map]
  have : ((fun s => isManagedName s.name) ∘ watchSlot) = fun s : Slot => isManagedName s.name := by
    funext s; simp [Function.comp, watchSlot_name]
  rw [this, List.length_map]

theorem countInputSlots_append (l₁ l₂ : List Slot) :
    countInputSlots (l₁ ++ l₂) = countInputSlots l₁ + countInputSlots l₂ :=
  List.countP_append _ _ _

theorem find?_eq_head?_filter (p : Slot → Bool) (l : List Slot) :
    l.find? p = (l.filter p).head? := by
  induction l with
  | nil => rfl
  | cons s rest ih =>
    by_cases h : p s
    · rw [List.find?_cons_of_pos _ h, List.filter_cons_of_pos h]
      rfl
    · rw [List.find?_cons_of_neg _ h, List.filter_cons_of_neg h, ih]

/-! ## The highest `input_XX` number -/

theorem foldr_max_acc (l : List Nat) (a : Nat) :
    l.foldr max a = max (maxList l) a := by
  induction l with
  | nil => simp [maxList]
  | cons n rest ih => simp [maxList, List.foldr_cons, ih, max_assoc]

theorem maxList_append (l₁ l₂ : List Nat) :
    maxList (l₁ ++ l₂) = max (maxList l₁) (maxList l₂) := by
  unfold maxList
  rw [List.foldr_append, foldr_max_acc]
  rfl

theorem maxList_reverse (l : List Nat) : maxList l.reverse = maxList l := by
  induction l with
  | nil => rfl
  | cons n rest ih =>
    rw [List.reverse_cons, maxList_append, ih]
    have h1 : maxList [n] = n := by simp [maxList]
    have h2 : maxList (n :: rest) = max n (maxList rest) := rfl
    rw [h1, h2, max_comm]

theorem maxList_sublist {l₁ l₂ : List Nat} (h : l₁.Sublist l₂) :
    maxList l₁ ≤ maxList l₂ := by
  induction h with
  | slnil => exact le_refl _
  | @cons l₁' l₂' a _ ih =>
    have h2 : maxList (a :: l₂') = max a (maxList l₂') := rfl
    rw [h2]
    exact le_trans ih (le_max_right _ _)
  | @cons₂ l₁' l₂' a _ ih =>
    have h1 : maxList (a :: l₁') = max a (maxList l₁') := rfl
    have h2 : maxList (a :: l₂') = max a (maxList l₂') := rfl
    rw [h1, h2]
    exact max_le_max le_rfl ih

theorem getHighest_aux (l : List Slot) (a : Nat) :
    l.foldl (fun h s => match managedNum s.name with
      | some n => max h n
      | none => h) a = max a (maxList (l.filterMap slotNum)) := by
  induction l generalizing a with
  | nil => simp [maxList]
  | cons s rest ih =>
    rw [List.foldl_cons]
    cases hm : managedNum s.name with
    | none =>
      simp only [hm]
      rw [ih, List.filterMap_cons]
      simp [slotNum, hm]
    | some n =>
      simp only [hm]
      rw [ih, List.filterMap_cons]
      simp only [slotNum, hm]
      have h2 : maxList (n :: List.filterMap slotNum rest) =
          max n (maxList (List.filterMap slotNum rest)) := rfl
      rw [h2, max_assoc]

theorem getHighest_eq (l : List Slot) :
    getHighestInputNumber l = maxList (l.filterMap slotNum) := by
  unfold getHighestInputNumber
  rw [getHighest_aux]
  simp

theorem getHighest_sublist {l₁ l₂ : List Slot} (h : l₁.Sublist l₂) :
    getHighestInputNumber l₁ ≤ getHighestInputNumber l₂ := by
  rw [getHighest_eq, getHighest_eq]
  exact maxList_sublist (h.filterMap _)

theorem getHighest_reverse (l : List Slot) :
    getHighestInputNumber l.reverse = getHighestInputNumber l := by
  rw [getHighest_eq, getHighest_eq, List.filterMap_reverse, maxList_reverse]

theorem getHighest_map_watch (l : List Slot) :
    getHighestInputNumber (l.map watchSlot) = getHighestInputNumber l := by
  rw [getHighest_eq, getHighest_eq, List.filterMap_map]
  have : (slotNum ∘ watchSlot) = slotNum := by
    funext s; simp [Function.comp, slotNum, watchSlot_name]
  rw [this]

theorem getHighest_append_one (l : List Slot) (x : Slot) :
    getHighestInputNumber (l ++ [x]) =
      max (getHighestInputNumber l) (getHighestInputNumber [x]) := by
  rw [getHighest_eq, getHighest_eq, getHighest_eq, List.filterMap_append, maxList_append]

/-! ## Shrink-phase lemmas -/

theorem countInputSlots_cons (s : Slot) (l : List Slot) :
    countInputSlots (s :: l) =
      countInputSlots l + (if isManagedName s.name then 1 else 0) :=
  List.countP_cons _ _ _

/-- The shrink loop only deletes slots. -/
theorem shrinkGo_sublist (r : List Slot) : ∀ c, (shrinkGo r c).1.Sublist r := by
  induction r with
  | nil => intro c; simp [shrinkGo]
  | cons s rest ih =>
    intro c
    by_cases hm : isManagedName s.name
    · by_cases hc : countInputSlots (s :: rest) ≤ MIN_INPUT_SLOTS
      · simp only [shrinkGo, hm, Bool.not_true, Bool.false_eq_true, if_false, if_pos hc]
        exact List.Sublist.refl _
      · by_cases hl : s.link.isSome
        · simp only [shrinkGo, hm, Bool.not_true, Bool.false_eq_true, if_false,
            if_neg hc, if_pos hl]
          exact List.Sublist.refl _
        · simp only [shrinkGo, hm, Bool.not_true, Bool.false_eq_true, if_false,
            if_neg hc, if_neg hl]
          exact List.Sublist.cons _ (ih _)
    · simp only [shrinkGo, hm, Bool.not_false, if_true]
      exact List.Sublist.cons₂ _ (ih _)

/-- The shrink loop never takes the managed count below what it was, or
    below the floor. -/
theorem shrinkGo_count_min (r : List Slot) :
    ∀ c, min (countInputSlots r) MIN_INPUT_SLOTS ≤
      countInputSlots (shrinkGo r c).1 := by
  induction r with
  | nil => intro c; simp [shrinkGo]
  | cons s rest ih =>
    intro c
    by_cases hm : isManagedName s.name
    · by_cases hc : countInputSlots (s :: rest) ≤ MIN_INPUT_SLOTS
      · simp only [shrinkGo, hm, Bool.not_true, Bool.false_eq_true, if_false, if_pos hc]
        exact min_le_left _ _
      · by_cases hl : s.link.isSome
        · simp only [shrinkGo, hm, Bool.not_true, Bool.false_eq_true, if_false,
            if_neg hc, if_pos hl]
          exact min_le_left _ _
        · simp only [shrinkGo, hm, Bool.not_true, Bool.false_eq_true, if_false,
            if_neg hc, if_neg hl]
          have h1 := ih (cacheWriteForLabel c s.name s.label)
          have h2 : countInputSlots (s :: rest) = countInputSlots rest + 1 := by
            rw [countInputSlots_cons, if_pos hm]
          unfold MIN_INPUT_SLOTS at *
          omega
    · simp only [shrinkGo, hm, Bool.not_false, if_true]
      have h1 := ih c
      have h2 : countInputSlots (s :: rest) = countInputSlots rest := by
        rw [countInputSlots_cons, if_neg hm]; omega
      have h3 : countInputSlots (s :: (shrinkGo rest c).1) =
          countInputSlots (shrinkGo rest c).1 := by
        rw [countInputSlots_cons, if_neg hm]; omega
      omega

/-- Running the shrink loop on its own output removes nothing more. -/
theorem shrinkGo_stable (r : List Slot) :
    ∀ c c', shrinkGo (shrinkGo r c).1 c' = ((shrinkGo r c).1, c') := by
  induction r with
  | nil => intro c c'; simp [shrinkGo]
  | cons s rest ih =>
    intro c c'
    by_cases hm : isManagedName s.name
    · by_cases hc : countInputSlots (s :: rest) ≤ MIN_INPUT_SLOTS
      · simp only [shrinkGo, hm, Bool.not_true, Bool.false_eq_true, if_false, if_pos hc]
      · by_cases hl : s.link.isSome
        · simp only [shrinkGo, hm, Bool.not_true, Bool.false_eq_true, if_false,
            if_neg hc, if_pos hl, if_neg hc]
        · simp only [shrinkGo, hm, Bool.not_true, Bool.false_eq_true, if_false,
            if_neg hc, if_neg hl]
          exact ih _ _
    · simp only [shrinkGo, hm, Bool.not_false, if_true]
      have h2 : countInputSlots (s :: (shrinkGo rest c).1) =
          countInputSlots (shrinkGo rest c).1 := by
        rw [countInputSlots_cons, if_neg hm]; omega
      rw [ih c c']

/-- After the shrink loop, the first managed slot of the (reversed) result
    is connected, or the managed count is at or below the floor. -/
theorem shrinkGo_shape (r : List Slot) :
    ∀ c, 1 ≤ countInputSlots r →
      (∃ s, ((shrinkGo r c).1.find? fun x => isManagedName x.name) = some s ∧
        s.link.isSome = true) ∨
      countInputSlots (shrinkGo r c).1 ≤ MIN_INPUT_SLOTS := by
  induction r with
  | nil => intro c h; simp [countInputSlots] at h
  | cons s rest ih =>
    intro c h
    by_cases hm : isManagedName s.name
    · by_cases hc : countInputSlots (s :: rest) ≤ MIN_INPUT_SLOTS
      · simp only [shrinkGo, hm, Bool.not_true, Bool.false_eq_true, if_false, if_pos hc]
        exact Or.inr hc
      · by_cases hl : s.link.isSome
        · simp only [shrinkGo, hm, Bool.not_true, Bool.false_eq_true, if_false,
            if_neg hc, if_pos hl]
          exact Or.inl ⟨s, List.find?_cons_of_pos _ hm, hl⟩
        · simp only [shrinkGo, hm, Bool.not_true, Bool.false_eq_true, if_false,
            if_neg hc, if_neg hl]
          apply ih
          have h2 : countInputSlots (s :: rest) = countInputSlots rest + 1 := by
            rw [countInputSlots_cons, if_pos hm]
          unfold MIN_INPUT_SLOTS at hc
          omega
    · simp only [shrinkGo, hm, Bool.not_false, if_true]
      have h2 : countInputSlots (s :: rest) = countInputSlots rest := by
        rw [countInputSlots_cons, if_neg hm]; omega
      rcases ih c (by omega) with ⟨t, hfind, hlink⟩ | hcount
      · refine Or.inl ⟨t, ?_, hlink⟩
        rw [List.find?_cons_of_neg _ (by simp [hm]), hfind]
      · refine Or.inr ?_
        rw [countInputSlots_cons, if_neg hm]
        omega

/-- The shrink loop commutes with installing label watchers: the watcher
    flag changes no name, link or label, so the same slots are removed and
    the same cache entries written. -/
theorem shrinkGo_map_watch (r : List Slot) :
    ∀ c, shrinkGo (r.map watchSlot) c =
      ((shrinkGo r c).1.map watchSlot, (shrinkGo r c).2) := by
  induction r with
  | nil => intro c; simp [shrinkGo]
  | cons s rest ih =>
    intro c
    rw [List.map_cons]
    have hname : (watchSlot s).name = s.name := watchSlot_name s
    have hlink : (watchSlot s).link = s.link := watchSlot_link s
    have hlabel : (watchSlot s).label = s.label := watchSlot_label s
    have hcount : countInputSlots (watchSlot s :: rest.map watchSlot) =
        countInputSlots (s :: rest) := by
      have := countInputSlots_map_watch (s :: rest)
      rwa [List.map_cons] at this
    by_cases hm : isManagedName s.name
    · have hm' : isManagedName (watchSlot s).name = true := by rw [hname]; exact hm
      by_cases hc : countInputSlots (s :: rest) ≤ MIN_INPUT_SLOTS
      · simp only [shrinkGo, hm, hm', Bool.not_true, Bool.false_eq_true, if_false,
          hcount, if_pos hc, List.map_cons]
      · by_cases hl : s.link.isSome
        · have hl' : (watchSlot s).link.isSome = true := by rw [hlink]; exact hl
          simp only [shrinkGo, hm, hm', Bool.not_true, Bool.false_eq_true, if_false,
            hcount, if_neg hc, hl', hl, if_true, List.map_cons]
        · have hl' : ¬((watchSlot s).link.isSome = true) := by rw [hlink]; exact hl
          simp only [shrinkGo, hm, hm', Bool.not_true, Bool.false_eq_true, if_false,
            hcount, if_neg hc, if_neg hl, if_neg hl', hlabel, hname]
          exact ih _
    · have hm' : ¬(isManagedName (watchSlot s).name = true) := by rw [hname]; exact hm
      simp only [shrinkGo, hm, hm', Bool.not_false, if_true, Bool.not_eq_true,
        Bool.not_eq_false]
      rw [ih c]
      simp [List.map_cons]

/-! ## Grow-phase and widget lemmas -/

theorem grow_of_none (st : NodeState)
    (h : st.inputs.reverse.find? (fun s => isManagedName s.name) = none) :
    addBufferInputIfNeeded st = st := by
  unfold addBufferInputIfNeeded
  rw [h]

theorem grow_of_unconnected (st : NodeState) (s : Slot)
    (h : st.inputs.reverse.find? (fun s => isManagedName s.name) = some s)
    (hl : s.link.isSome = false) :
    addBufferInputIfNeeded st = st := by
  unfold addBufferInputIfNeeded
  rw [h]
  simp [hl]

theorem grow_of_connected (st : NodeState) (s : Slot)
    (h : st.inputs.reverse.find? (fun s => isManagedName s.name) = some s)
    (hl : s.link.isSome = true) :
    addBufferInputIfNeeded st = { st with inputs := st.inputs ++ [newBufferSlot st] } := by
  unfold addBufferInputIfNeeded
  rw [h]
  simp [hl, newBufferSlot]

theorem restoredLabel_some (c : List (String × String)) (nm l : String)
    (h : restoredLabel c nm = some l) : lookupKey c nm = some l ∧ l ≠ "" := by
  unfold restoredLabel at h
  cases hc : lookupKey c nm with
  | none => rw [hc] at h; exact absurd h (by simp)
  | some l' =>
    rw [hc] at h
    dsimp only at h
    by_cases he : l' = ""
    · rw [if_neg (by simp [he])] at h
      exact absurd h (by simp)
    · rw [if_pos he] at h
      injection h with h'
      subst h'
      exact ⟨rfl, he⟩

theorem grow_fields (st : NodeState) :
    (addBufferInputIfNeeded st).labelCache = st.labelCache ∧
    (addBufferInputIfNeeded st).nameMap = st.nameMap ∧
    (addBufferInputIfNeeded st).selOptions = st.selOptions ∧
    (addBufferInputIfNeeded st).selValue = st.selValue := by
  unfold addBufferInputIfNeeded
  split
  · exact ⟨rfl, rfl, rfl, rfl⟩
  · split
    · exact ⟨rfl, rfl, rfl, rfl⟩
    · exact ⟨rfl, rfl, rfl, rfl⟩

theorem updateSelect_inputs (st : NodeState) :
    (updateSelectWidget st).inputs = st.inputs := by
  unfold updateSelectWidget
  split <;> rfl

theorem updateSelect_cache (st : NodeState) :
    (updateSelectWidget st).labelCache = st.labelCache := by
  unfold updateSelectWidget
  split <;> rfl

theorem headD_mem (l : List String) (h : l ≠ []) : l.headD "" ∈ l := by
  cases l with
  | nil => exact absurd rfl h
  | cons a rest => simp [List.headD]

theorem selNextValue_fix (labels : List String) (v : String) (h : labels ≠ []) :
    selNextValue labels (selNextValue labels v) = selNextValue labels v := by
  unfold selNextValue
  by_cases h1 : v = NONE_SELECTION
  · simp [h1]
  · rw [if_neg h1]
    by_cases h2 : labels.contains v
    · rw [if_pos h2, if_neg h1, if_pos h2]
    · rw [if_neg h2]
      by_cases h3 : v = NO_CONNECTIONS
      · rw [if_pos h3]
        by_cases h4 : labels.headD "" = NONE_SELECTION
        · rw [if_pos h4]
          exact h4.symm
        · rw [if_neg h4, if_pos (by simpa using headD_mem labels h)]
      · rw [if_neg h3, if_neg h1, if_neg h2, if_neg h3]

theorem updateSelectWidget_idem (st : NodeState) :
    updateSelectWidget (updateSelectWidget st) = updateSelectWidget st := by
  have hin : (updateSelectWidget st).inputs = st.inputs := updateSelect_inputs st
  by_cases hE : (buildConnectedInputInfo st.inputs).1.isEmpty
  · have h1 : updateSelectWidget st =
        { st with nameMap := (buildConnectedInputInfo st.inputs).2,
                  selOptions := [NO_CONNECTIONS], selValue := NO_CONNECTIONS } := by
      unfold updateSelectWidget
      rw [if_pos hE]
    rw [h1]
    unfold updateSelectWidget
    rw [if_pos (by simpa using hE)]
  · have h1 : updateSelectWidget st =
        { st with nameMap := (buildConnectedInputInfo st.inputs).2,
                  selOptions := NONE_SELECTION :: (buildConnectedInputInfo st.inputs).1,
                  selValue := selNextValue (buildConnectedInputInfo st.inputs).1 st.selValue } := by
      unfold updateSelectWidget
      rw [if_neg hE]
    rw [h1]
    unfold updateSelectWidget
    rw [if_neg (by simpa using hE)]
    have hne : (buildConnectedInputInfo st.inputs).1 ≠ [] := by
      simpa [List.isEmpty_iff] using hE
    simp only []
    rw [selNextValue_fix _ _ hne]

/-! ## Stabilize idempotence machinery -/

theorem managedP_comp_watch :
    ((fun s : Slot => isManagedName s.name) ∘ watchSlot) =
      (fun s : Slot => isManagedName s.name) := by
  funext s
  simp [Function.comp, watchSlot_name]

theorem map_watch_idem (l : List Slot) :
    (l.map watchSlot).map watchSlot = l.map watchSlot := by
  rw [List.map_map]
  congr 1
  funext s
  exact watchSlot_idem s

theorem find?_managed_map_watch (l : List Slot) :
    (l.map watchSlot).find? (fun s => isManagedName s.name) =
      (l.find? (fun s => isManagedName s.name)).map watchSlot := by
  rw [List.find?_map, managedP_comp_watch]

/-- Removing a slot whose label was restored from the cache writes back the
    value the cache already holds, leaving the cache unchanged. -/
theorem shrink_cache_write_of_restored (c : List (String × String)) (nm : String) :
    cacheWriteForLabel c nm (restoredLabel c nm) = c := by
  cases hlbv : restoredLabel c nm with
  | none => rfl
  | some l =>
    have h := restoredLabel_some c nm l hlbv
    show (if l ≠ "" then setKey c nm l else c) = c
    rw [if_pos h.2, setKey_eq_of_lookup _ _ _ h.1]

theorem grow_inputs_congr (z₁ z₂ : NodeState) (hi : z₁.inputs = z₂.inputs)
    (hc : z₁.labelCache = z₂.labelCache) :
    (addBufferInputIfNeeded z₁).inputs = (addBufferInputIfNeeded z₂).inputs := by
  cases hf : z₂.inputs.reverse.find? (fun s => isManagedName s.name) with
  | none =>
    rw [grow_of_none z₁ (by rw [hi]; exact hf), grow_of_none z₂ hf, hi]
  | some s =>
    by_cases hl : s.link.isSome
    · rw [grow_of_connected z₁ s (by rw [hi]; exact hf) hl,
        grow_of_connected z₂ s hf hl]
      show z₁.inputs ++ [newBufferSlot z₁] = z₂.inputs ++ [newBufferSlot z₂]
      rw [hi]
      unfold newBufferSlot
      rw [hi, hc]
    · have hl' : s.link.isSome = false := by simpa using hl
      rw [grow_of_unconnected z₁ s (by rw [hi]; exact hf) hl',
        grow_of_unconnected z₂ s hf hl', hi]

/-- The core of stabilize-idempotence: on a node whose slot list is the
    watched image of a shrink-stable list `J` (with its buffer appended when
    the grow step fired), re-running shrink, grow and watch reproduces the
    state exactly: the second shrink removes at most the freshly appended
    buffer (writing back the cache value it was restored from), and the
    second grow re-appends an identical buffer. -/
theorem WBA_fix (J : List Slot) (c1 nmap : List (String × String))
    (opts : List String) (v : String)
    (hstable : ∀ c, shrinkGo J.reverse c = (J.reverse, c))
    (h98 : getHighestInputNumber J ≤ 98) :
    watchInputLabels (addBufferInputIfNeeded (removeUnusedInputsFromEnd
      { inputs := (addBufferInputIfNeeded
          (⟨J, c1, nmap, opts, v⟩ : NodeState)).inputs.map watchSlot,
        labelCache := c1, nameMap := nmap, selOptions := opts, selValue := v })) =
    { inputs := (addBufferInputIfNeeded
        (⟨J, c1, nmap, opts, v⟩ : NodeState)).inputs.map watchSlot,
      labelCache := c1, nameMap := nmap, selOptions := opts, selValue := v } := by
  have hA_noop : ∀ (nm2 : List (String × String)) (o2 : List String) (v2 : String),
      removeUnusedInputsFromEnd
        (⟨J.map watchSlot, c1, nm2, o2, v2⟩ : NodeState) =
      ⟨J.map watchSlot, c1, nm2, o2, v2⟩ := by
    intro nm2 o2 v2
    unfold removeUnusedInputsFromEnd
    show (⟨(shrinkGo (J.map watchSlot).reverse c1).1.reverse,
      (shrinkGo (J.map watchSlot).reverse c1).2, nm2, o2, v2⟩ : NodeState) = _
    rw [← List.map_reverse, shrinkGo_map_watch, hstable c1]
    simp [List.map_reverse]
  cases hf : J.reverse.find? (fun s => isManagedName s.name) with
  | none =>
    have hBt : addBufferInputIfNeeded (⟨J, c1, nmap, opts, v⟩ : NodeState) =
        ⟨J, c1, nmap, opts, v⟩ := grow_of_none _ hf
    rw [hBt]
    show watchInputLabels (addBufferInputIfNeeded (removeUnusedInputsFromEnd
      (⟨J.map watchSlot, c1, nmap, opts, v⟩ : NodeState))) = _
    rw [hA_noop]
    have hfR : (J.map watchSlot).reverse.find? (fun s => isManagedName s.name) = none := by
      rw [← List.map_reverse, find?_managed_map_watch, hf]
      rfl
    rw [grow_of_none _ hfR]
    show (⟨(J.map watchSlot).map watchSlot, c1, nmap, opts, v⟩ : NodeState) = _
    rw [map_watch_idem]
  | some s =>
    by_cases hl : s.link.isSome
    case neg =>
      have hl' : s.link.isSome = false := by simpa using hl
      have hBt : addBufferInputIfNeeded (⟨J, c1, nmap, opts, v⟩ : NodeState) =
          ⟨J, c1, nmap, opts, v⟩ := grow_of_unconnected _ s hf hl'
      rw [hBt]
      show watchInputLabels (addBufferInputIfNeeded (removeUnusedInputsFromEnd
        (⟨J.map watchSlot, c1, nmap, opts, v⟩ : NodeState))) = _
      rw [hA_noop]
      have hfR : (J.map watchSlot).reverse.find? (fun s => isManagedName s.name) =
          some (watchSlot s) := by
        rw [← List.map_reverse, find?_managed_map_watch, hf]
        rfl
      rw [grow_of_unconnected _ (watchSlot s) hfR (by rw [watchSlot_link]; exact hl')]
      show (⟨(J.map watchSlot).map watchSlot, c1, nmap, opts, v⟩ : NodeState) = _
      rw [map_watch_idem]
    case pos =>
      -- grow fired: the buffer slot was appended
      have hxm : isManagedName (mkInputName (getHighestInputNumber J + 1)) = true :=
        isManagedName_mkInputName (by omega)
      have hBt : addBufferInputIfNeeded (⟨J, c1, nmap, opts, v⟩ : NodeState) =
          ⟨J ++ [⟨mkInputName (getHighestInputNumber J + 1),
            restoredLabel c1 (mkInputName (getHighestInputNumber J + 1)),
            none, false⟩], c1, nmap, opts, v⟩ := by
        rw [grow_of_connected _ s hf hl]
        rfl
      rw [hBt]
      clear hBt
      generalize hnm : mkInputName (getHighestInputNumber J + 1) = nm at hxm ⊢
      generalize hlb : restoredLabel c1 nm = lb
      have hwx : watchSlot (⟨nm, lb, none, false⟩ : Slot) = ⟨nm, lb, none, true⟩ := by
        unfold watchSlot
        rw [if_pos hxm]
      have hwx2 : watchSlot (⟨nm, lb, none, true⟩ : Slot) = ⟨nm, lb, none, true⟩ := by
        unfold watchSlot
        rw [if_pos hxm]
      have hmapx : (J ++ [(⟨nm, lb, none, false⟩ : Slot)]).map watchSlot =
          J.map watchSlot ++ [⟨nm, lb, none, true⟩] := by
        rw [List.map_append, List.map_cons, List.map_nil, hwx]
      rw [hmapx]
      -- the second shrink sees the reversed list  wx :: (map watchSlot J).reverse
      have hrev : (J.map watchSlot ++ [(⟨nm, lb, none, true⟩ : Slot)]).reverse =
          (⟨nm, lb, none, true⟩ : Slot) :: (J.map watchSlot).reverse := by
        rw [List.reverse_append]
        rfl
      have hcnt : countInputSlots ((⟨nm, lb, none, true⟩ : Slot) ::
          (J.map watchSlot).reverse) = countInputSlots J + 1 := by
        rw [countInputSlots_cons]
        show countInputSlots (J.map watchSlot).reverse +
          (if isManagedName nm then 1 else 0) = _
        rw [countInputSlots_reverse, countInputSlots_map_watch, if_pos hxm]
      by_cases h3 : countInputSlots J + 1 ≤ MIN_INPUT_SLOTS
      · -- below the floor: the buffer survives the second shrink untouched
        have hAR : removeUnusedInputsFromEnd
            (⟨J.map watchSlot ++ [⟨nm, lb, none, true⟩], c1, nmap, opts, v⟩ : NodeState) =
            ⟨J.map watchSlot ++ [⟨nm, lb, none, true⟩], c1, nmap, opts, v⟩ := by
          unfold removeUnusedInputsFromEnd
          rw [hrev]
          show (⟨(shrinkGo _ c1).1.reverse, (shrinkGo _ c1).2, nmap, opts, v⟩ : NodeState) = _
          rw [show shrinkGo ((⟨nm, lb, none, true⟩ : Slot) ::
              (J.map watchSlot).reverse) c1 =
              ((⟨nm, lb, none, true⟩ : Slot) :: (J.map watchSlot).reverse, c1) by
            simp only [shrinkGo, hxm, Bool.not_true, Bool.false_eq_true, if_false]
            rw [if_pos (by rw [hcnt]; exact h3)]]
          rw [← hrev, List.reverse_reverse]
        rw [hAR]
        have hfR : (J.map watchSlot ++
            [(⟨nm, lb, none, true⟩ : Slot)]).reverse.find?
              (fun s => isManagedName s.name) = some ⟨nm, lb, none, true⟩ := by
          rw [hrev]
          exact List.find?_cons_of_pos _ hxm
        rw [grow_of_unconnected _ (⟨nm, lb, none, true⟩ : Slot) hfR rfl]
        show (⟨(J.map watchSlot ++ [(⟨nm, lb, none, true⟩ : Slot)]).map watchSlot,
          c1, nmap, opts, v⟩ : NodeState) = _
        rw [List.map_append, map_watch_idem, List.map_cons, List.map_nil, hwx2]
      · -- above the floor: the second shrink removes the buffer (re-writing
        -- its cached label), and the second grow re-appends it identically
        have hshr : shrinkGo ((⟨nm, lb, none, true⟩ : Slot) ::
            (J.map watchSlot).reverse) c1 = ((J.map watchSlot).reverse, c1) := by
          have step1 : shrinkGo ((⟨nm, lb, none, true⟩ : Slot) ::
              (J.map watchSlot).reverse) c1 =
              shrinkGo ((J.map watchSlot).reverse) (cacheWriteForLabel c1 nm lb) := by
            simp only [shrinkGo, hxm, Bool.not_true, Bool.false_eq_true, if_false]
            rw [if_neg (by rw [hcnt]; exact h3), if_neg (by simp)]
          rw [step1, ← hlb, shrink_cache_write_of_restored, ← List.map_reverse,
            shrinkGo_map_watch, hstable c1, List.map_reverse]
        have hAR : removeUnusedInputsFromEnd
            (⟨J.map watchSlot ++ [⟨nm, lb, none, true⟩], c1, nmap, opts, v⟩ : NodeState) =
            ⟨J.map watchSlot, c1, nmap, opts, v⟩ := by
          unfold removeUnusedInputsFromEnd
          rw [hrev]
          show (⟨(shrinkGo _ c1).1.reverse, (shrinkGo _ c1).2, nmap, opts, v⟩ : NodeState) = _
          rw [hshr, List.reverse_reverse]
        rw [hAR]
        -- the second grow re-appends the same buffer
        have hfR : (J.map watchSlot).reverse.find? (fun s => isManagedName s.name) =
            some (watchSlot s) := by
          rw [← List.map_reverse, find?_managed_map_watch, hf]
          rfl
        rw [grow_of_connected _ (watchSlot s) hfR (by rw [watchSlot_link]; exact hl)]
        show watchInputLabels
          (⟨J.map watchSlot ++ [newBufferSlot ⟨J.map watchSlot, c1, nmap, opts, v⟩],
            c1, nmap, opts, v⟩ : NodeState) = _
        have hnew : newBufferSlot (⟨J.map watchSlot, c1, nmap, opts, v⟩ : NodeState) =
            ⟨nm, lb, none, false⟩ := by
          unfold newBufferSlot
          show (⟨mkInputName (getHighestInputNumber (J.map watchSlot) + 1), _, none, false⟩ : Slot) = _
          rw [getHighest_map_watch, hnm]
          show (⟨nm, restoredLabel c1 nm, none, false⟩ : Slot) = _
          rw [hlb]
        rw [hnew]
        show (⟨(J.map watchSlot ++ [(⟨nm, lb, none, false⟩ : Slot)]).map watchSlot,
          c1, nmap, opts, v⟩ : NodeState) = _
        rw [List.map_append, map_watch_idem, List.map_cons, List.map_nil, hwx]

/-- Stabilize is idempotent on every state whose highest managed input
    number stays below 99 (so that the grow step appends a managed slot). -/
theorem stabilize_idem (st : NodeState)
    (h98 : getHighestInputNumber st.inputs ≤ 98) :
    stabilize (stabilize st) = stabilize st := by
  have hstable : ∀ c, shrinkGo ((removeUnusedInputsFromEnd st).inputs).reverse c =
      (((removeUnusedInputsFromEnd st).inputs).reverse, c) := by
    intro c
    show shrinkGo ((shrinkGo st.inputs.reverse st.labelCache).1.reverse.reverse) c =
      ((shrinkGo st.inputs.reverse st.labelCache).1.reverse.reverse, c)
    rw [List.reverse_reverse]
    exact shrinkGo_stable _ _ _
  have hJ98 : getHighestInputNumber (removeUnusedInputsFromEnd st).inputs ≤ 98 := by
    have h2 := getHighest_sublist (shrinkGo_sublist st.inputs.reverse st.labelCache)
    rw [getHighest_reverse] at h2
    have h1 : getHighestInputNumber (removeUnusedInputsFromEnd st).inputs =
        getHighestInputNumber (shrinkGo st.inputs.reverse st.labelCache).1 := by
      show getHighestInputNumber ((shrinkGo st.inputs.reverse st.labelCache).1.reverse) = _
      exact getHighest_reverse _
    omega
  set R1 := stabilize st with hR1
  have r1i : R1.inputs =
      ((addBufferInputIfNeeded (removeUnusedInputsFromEnd st)).inputs).map watchSlot := by
    rw [hR1]
    show (updateSelectWidget _).inputs = _
    rw [updateSelect_inputs]
    rfl
  have r1c : R1.labelCache = (removeUnusedInputsFromEnd st).labelCache := by
    rw [hR1]
    show (updateSelectWidget _).labelCache = _
    rw [updateSelect_cache]
    exact (grow_fields _).1
  have hR1eq : R1 = (⟨(addBufferInputIfNeeded
        (⟨(removeUnusedInputsFromEnd st).inputs,
          (removeUnusedInputsFromEnd st).labelCache,
          R1.nameMap, R1.selOptions, R1.selValue⟩ : NodeState)).inputs.map watchSlot,
      (removeUnusedInputsFromEnd st).labelCache,
      R1.nameMap, R1.selOptions, R1.selValue⟩ : NodeState) := by
    apply NodeState.ext
    · rw [r1i]
      congr 1
      exact grow_inputs_congr _ _ rfl rfl
    · exact r1c
    · rfl
    · rfl
    · rfl
  have hfix := WBA_fix (removeUnusedInputsFromEnd st).inputs
    (removeUnusedInputsFromEnd st).labelCache R1.nameMap R1.selOptions R1.selValue
    hstable hJ98
  show stabilize R1 = R1
  rw [hR1eq]
  unfold stabilize
  rw [hfix, ← hR1eq, hR1]
  unfold stabilize
  exact updateSelectWidget_idem _

/-! ## Trailing-buffer shape after a stabilize pass -/

theorem trailing_map_watch (l : List Slot) :
    trailingUnconnected (l.map watchSlot) = trailingUnconnected l := by
  unfold trailingUnconnected
  rw [← List.map_reverse, List.filter_map, managedP_comp_watch, List.takeWhile_map]
  rw [show ((fun s : Slot => !s.link.isSome) ∘ watchSlot) =
    (fun s : Slot => !s.link.isSome) from by
      funext s
      simp [Function.comp, watchSlot_link]]
  rw [List.length_map]

theorem count_pos_of_find? (l : List Slot) (s : Slot)
    (h : l.find? (fun x => isManagedName x.name) = some s) :
    1 ≤ countInputSlots l := by
  by_contra hc
  have h0 : countInputSlots l = 0 := by omega
  rw [countInputSlots, List.countP_eq_zero] at h0
  have hs := List.find?_some h
  have hmem := List.mem_of_find?_eq_some h
  exact h0 s hmem hs

/-- Amended C1 invariant, general form: a stabilize pass on a node with at
    least one managed slot, whose numbering has room to grow, leaves at least
    one unconnected slot at the managed tail, and leaves more than one only
    when the managed count is at (or below) the `MIN_INPUT_SLOTS` floor. -/
theorem stabilize_trailing (st : NodeState)
    (h1 : 1 ≤ countInputSlots st.inputs)
    (h98 : getHighestInputNumber st.inputs ≤ 98) :
    1 ≤ trailingUnconnected (stabilize st).inputs ∧
    (1 < trailingUnconnected (stabilize st).inputs →
      countInputSlots (stabilize st).inputs ≤ MIN_INPUT_SLOTS) := by
  have hstabinputs : (stabilize st).inputs =
      ((addBufferInputIfNeeded (removeUnusedInputsFromEnd st)).inputs).map watchSlot := by
    show (updateSelectWidget _).inputs = _
    rw [updateSelect_inputs]
    rfl
  have hJrev : ((removeUnusedInputsFromEnd st).inputs).reverse =
      (shrinkGo st.inputs.reverse st.labelCache).1 := by
    show (shrinkGo st.inputs.reverse st.labelCache).1.reverse.reverse = _
    rw [List.reverse_reverse]
  have hcount1 : 1 ≤ countInputSlots (removeUnusedInputsFromEnd st).inputs := by
    have := shrinkGo_count_min st.inputs.reverse st.labelCache
    rw [countInputSlots_reverse] at this
    have h2 : countInputSlots (removeUnusedInputsFromEnd st).inputs =
        countInputSlots (shrinkGo st.inputs.reverse st.labelCache).1 := by
      rw [← countInputSlots_reverse, hJrev]
    unfold MIN_INPUT_SLOTS at this
    omega
  have hshape := shrinkGo_shape st.inputs.reverse st.labelCache
    (by rw [countInputSlots_reverse]; exact h1)
  rw [← hJrev] at hshape
  cases hf : ((removeUnusedInputsFromEnd st).inputs).reverse.find?
      (fun s => isManagedName s.name) with
  | none =>
    exfalso
    rw [List.find?_eq_none] at hf
    have : countInputSlots ((removeUnusedInputsFromEnd st).inputs).reverse = 0 := by
      rw [countInputSlots, List.countP_eq_zero]
      exact hf
    rw [countInputSlots_reverse] at this
    omega
  | some s =>
    by_cases hl : s.link.isSome
    case pos =>
      -- grow appends the managed buffer: exactly one trailing unconnected slot
      have hgrow := grow_of_connected (removeUnusedInputsFromEnd st) s hf hl
      have hJ98 : getHighestInputNumber (removeUnusedInputsFromEnd st).inputs ≤ 98 := by
        have h2 := getHighest_sublist (shrinkGo_sublist st.inputs.reverse st.labelCache)
        rw [getHighest_reverse] at h2
        rw [← getHighest_reverse, hJrev]
        omega
      have hxm : isManagedName (newBufferSlot (removeUnusedInputsFromEnd st)).name = true := by
        show isManagedName (mkInputName (getHighestInputNumber
          (removeUnusedInputsFromEnd st).inputs + 1)) = true
        exact isManagedName_mkInputName (by omega)
      rw [hstabinputs, hgrow]
      have htail : trailingUnconnected
          (((removeUnusedInputsFromEnd st).inputs ++
            [newBufferSlot (removeUnusedInputsFromEnd st)]).map watchSlot) = 1 := by
        rw [trailing_map_watch]
        unfold trailingUnconnected
        rw [List.reverse_append]
        show ((((newBufferSlot (removeUnusedInputsFromEnd st)) ::
          ((removeUnusedInputsFromEnd st).inputs).reverse).filter
            fun s => isManagedName s.name).takeWhile fun s => !s.link.isSome).length = 1
        rw [@List.filter_cons_of_pos _ (fun s : Slot => isManagedName s.name) _ _ hxm]
        rw [@List.takeWhile_cons_of_pos _ (fun s : Slot => !s.link.isSome) _ _ (by rfl)]
        have hhead : (((removeUnusedInputsFromEnd st).inputs).reverse.filter
            fun s => isManagedName s.name).head? = some s := by
          rw [← find?_eq_head?_filter]
          exact hf
        cases hfl : ((removeUnusedInputsFromEnd st).inputs).reverse.filter
            (fun s => isManagedName s.name) with
        | nil => rw [hfl] at hhead; exact absurd hhead (by simp)
        | cons a tail =>
          rw [hfl] at hhead
          have ha : a = s := by
            simpa using hhead
          rw [@List.takeWhile_cons_of_neg _ (fun s : Slot => !s.link.isSome) _ _
            (by rw [ha]; simp [hl])]
          rfl
      rw [htail]
      exact ⟨le_refl 1, by omega⟩
    case neg =>
      -- no grow: the shrink stopped at the floor
      have hl' : s.link.isSome = false := by simpa using hl
      have hgrow := grow_of_unconnected (removeUnusedInputsFromEnd st) s hf hl'
      rw [hstabinputs, hgrow, trailing_map_watch, countInputSlots_map_watch]
      have hcle : countInputSlots (removeUnusedInputsFromEnd st).inputs ≤
          MIN_INPUT_SLOTS := by
        rcases hshape with ⟨s', hfind', hlink'⟩ | hc
        · rw [hf] at hfind'
          injection hfind' with he
          rw [← he] at hlink'
          rw [hlink'] at hl'
          exact absurd hl' (by simp)
        · rw [← countInputSlots_reverse]
          exact hc
      refine ⟨?_, fun _ => hcle⟩
      unfold trailingUnconnected
      have hhead : (((removeUnusedInputsFromEnd st).inputs).reverse.filter
          fun s => isManagedName s.name).head? = some s := by
        rw [← find?_eq_head?_filter]
        exact hf
      cases hfl : ((removeUnusedInputsFromEnd st).inputs).reverse.filter
          (fun s => isManagedName s.name) with
      | nil => rw [hfl] at hhead; exact absurd hhead (by simp)
      | cons a tail =>
        rw [hfl] at hhead
        have ha : a = s := by simpa using hhead
        rw [@List.takeWhile_cons_of_pos _ (fun s : Slot => !s.link.isSome) _ _
          (by rw [ha]; simp [hl'])]
        simp

/-! ## Slot-count preservation (floor invariant) -/

theorem perm_insertIdx (x : Slot) (n : Nat) (l : List Slot) (h : n ≤ l.length) :
    (l.insertIdx n x).Perm (x :: l) := by
  induction l generalizing n with
  | nil =>
    have h0 : n = 0 := by simpa using h
    subst h0
    exact List.Perm.refl _
  | cons a rest ih =>
    cases n with
    | zero => exact List.Perm.refl _
    | succ m =>
      rw [List.insertIdx_succ_cons]
      exact (List.Perm.cons a (ih m (by simpa using h))).trans (List.Perm.swap x a rest)

theorem perm_eraseIdx (l : List Slot) (n : Nat) (x : Slot)
    (h : l.get? n = some x) : (x :: l.eraseIdx n).Perm l := by
  induction l generalizing n with
  | nil => simp at h
  | cons a rest ih =>
    cases n with
    | zero =>
      simp only [List.get?_cons_zero, Option.some.injEq] at h
      rw [h]
      exact List.Perm.refl _
    | succ m =>
      simp only [List.get?_cons_succ] at h
      show (x :: (a :: rest.eraseIdx m)).Perm (a :: rest)
      exact (List.Perm.swap a x _).trans (List.Perm.cons a (ih m h))

/-- Renaming managed slots to `input_01, input_02, ...` keeps at least `m` of
    them managed as long as the numbering stays within two digits. -/
theorem renameGo_count_ge (l : List Slot) :
    ∀ k m, m ≤ countInputSlots l → k + m ≤ 100 →
      m ≤ countInputSlots (renameGo l k).1 := by
  induction l with
  | nil =>
    intro k m hm _
    have h0 : m = 0 := by simpa [countInputSlots] using hm
    show m ≤ countInputSlots ([] : List Slot)
    simp [countInputSlots, h0]
  | cons s rest ih =>
    intro k m hm hk
    by_cases hs : isManagedName s.name
    · simp only [renameGo, hs, if_true]
      cases m with
      | zero => omega
      | succ m' =>
        have hkm : isManagedName (mkInputName k) = true :=
          isManagedName_mkInputName (by omega)
        have hc : countInputSlots
            ({ s with name := mkInputName k } :: (renameGo rest (k + 1)).1) =
            countInputSlots (renameGo rest (k + 1)).1 + 1 := by
          rw [countInputSlots_cons]
          show _ + (if isManagedName (mkInputName k) then 1 else 0) = _
          rw [if_pos hkm]
        have hrest : m' ≤ countInputSlots rest := by
          rw [countInputSlots_cons, if_pos hs] at hm
          omega
        have := ih (k + 1) m' hrest (by omega)
        rw [hc]
        omega
    · simp only [renameGo, hs, Bool.false_eq_true, if_false]
      have hc : countInputSlots (s :: (renameGo rest k).1) =
          countInputSlots (renameGo rest k).1 := by
        rw [countInputSlots_cons, if_neg hs]
        omega
      have hrest : m ≤ countInputSlots rest := by
        rw [countInputSlots_cons, if_neg hs] at hm
        omega
      have := ih k m hrest hk
      rw [hc]
      omega

theorem stabilize_count_ge (st : NodeState)
    (h : MIN_INPUT_SLOTS ≤ countInputSlots st.inputs) :
    MIN_INPUT_SLOTS ≤ countInputSlots (stabilize st).inputs := by
  have hstabinputs : (stabilize st).inputs =
      ((addBufferInputIfNeeded (removeUnusedInputsFromEnd st)).inputs).map watchSlot := by
    show (updateSelectWidget _).inputs = _
    rw [updateSelect_inputs]
    rfl
  have hshr : MIN_INPUT_SLOTS ≤ countInputSlots (removeUnusedInputsFromEnd st).inputs := by
    have := shrinkGo_count_min st.inputs.reverse st.labelCache
    rw [countInputSlots_reverse] at this
    have h2 : countInputSlots (removeUnusedInputsFromEnd st).inputs =
        countInputSlots (shrinkGo st.inputs.reverse st.labelCache).1 := by
      rw [← countInputSlots_reverse]
      show countInputSlots ((shrinkGo st.inputs.reverse st.labelCache).1.reverse.reverse) = _
      rw [List.reverse_reverse]
    omega
  have hgrow : countInputSlots (removeUnusedInputsFromEnd st).inputs ≤
      countInputSlots (addBufferInputIfNeeded (removeUnusedInputsFromEnd st)).inputs := by
    cases hf : ((removeUnusedInputsFromEnd st).inputs).reverse.find?
        (fun s => isManagedName s.name) with
    | none => rw [grow_of_none _ hf]
    | some s =>
      by_cases hl : s.link.isSome
      · rw [grow_of_connected _ s hf hl]
        show _ ≤ countInputSlots ((removeUnusedInputsFromEnd st).inputs ++ [_])
        rw [countInputSlots_append]
        omega
      · rw [grow_of_unconnected _ s hf (by simpa using hl)]
  rw [hstabinputs, countInputSlots_map_watch]
  omega

theorem move_count_ge (st : NodeState) (links : List (Nat × LinkRec))
    (fromIdx toIdx : Nat) (h : MIN_INPUT_SLOTS ≤ countInputSlots st.inputs) :
    MIN_INPUT_SLOTS ≤ countInputSlots ((moveInputSlot st links fromIdx toIdx).1).inputs := by
  unfold moveInputSlot
  by_cases hft : fromIdx = toIdx
  · rw [if_pos hft]
    exact h
  · rw [if_neg hft]
    show MIN_INPUT_SLOTS ≤ countInputSlots
      (stabilize (moveInputSlotCore st links fromIdx toIdx).1).inputs
    apply stabilize_count_ge
    unfold moveInputSlotCore
    cases hg : st.inputs.get? fromIdx with
    | none => exact h
    | some x =>
      show MIN_INPUT_SLOTS ≤ countInputSlots (renameGo ((st.inputs.eraseIdx fromIdx).insertIdx
        (min toIdx (st.inputs.eraseIdx fromIdx).length) x) 1).1
      apply renameGo_count_ge _ 1 MIN_INPUT_SLOTS _ (by norm_num [MIN_INPUT_SLOTS])
      have hperm1 := perm_insertIdx x (min toIdx (st.inputs.eraseIdx fromIdx).length)
        (st.inputs.eraseIdx fromIdx) (min_le_right _ _)
      have hperm2 := perm_eraseIdx st.inputs fromIdx x hg
      have hp := hperm1.trans hperm2
      unfold countInputSlots
      rw [hp.countP_eq]
      exact h

/-! ## Label round-trip machinery -/

theorem cacheWrite_lookup_ne (c : List (String × String)) (n : String)
    (lbl : Option String) (X : String) (h : n ≠ X) :
    lookupKey (cacheWriteForLabel c n lbl) X = lookupKey c X := by
  cases lbl with
  | none => rfl
  | some l =>
    show lookupKey (if l ≠ "" then setKey c n l else c) X = _
    by_cases he : l = ""
    · rw [if_neg (by simp [he])]
    · rw [if_pos he]
      exact lookupKey_setKey_ne c X n l h

theorem shrinkGo_cache_unchanged (r : List Slot) :
    ∀ c X, (∀ sl ∈ r, sl.name ≠ X) →
      lookupKey (shrinkGo r c).2 X = lookupKey c X := by
  induction r with
  | nil => intro c X _; rfl
  | cons s rest ih =>
    intro c X hne
    by_cases hm : isManagedName s.name
    · by_cases hc : countInputSlots (s :: rest) ≤ MIN_INPUT_SLOTS
      · simp only [shrinkGo, hm, Bool.not_true, Bool.false_eq_true, if_false, if_pos hc]
      · by_cases hl : s.link.isSome
        · simp only [shrinkGo, hm, Bool.not_true, Bool.false_eq_true, if_false,
            if_neg hc, if_pos hl]
        · simp only [shrinkGo, hm, Bool.not_true, Bool.false_eq_true, if_false,
            if_neg hc, if_neg hl]
          rw [ih _ X (fun sl hsl => hne sl (List.mem_cons_of_mem s hsl))]
          exact cacheWrite_lookup_ne c s.name s.label X
            (hne s (List.mem_cons_self s rest))
    · simp only [shrinkGo, hm, Bool.not_false, if_true]
      exact ih c X (fun sl hsl => hne sl (List.mem_cons_of_mem s hsl))

/-- If the shrink loop removed the (unique) slot named `X` that carried a
    truthy label `L`, the cache afterwards maps `X` to `L`. -/
theorem shrinkGo_cache_of_removed (r : List Slot) :
    ∀ c X L, (r.map Slot.name).Nodup →
      (∃ sl ∈ r, sl.name = X ∧ sl.label = some L ∧ L ≠ "") →
      (∀ sl ∈ (shrinkGo r c).1, sl.name ≠ X) →
      lookupKey (shrinkGo r c).2 X = some L := by
  induction r with
  | nil =>
    intro c X L _ hin _
    obtain ⟨sl, hmem, _⟩ := hin
    exact absurd hmem (List.not_mem_nil sl)
  | cons s rest ih =>
    intro c X L hnodup hin hrem
    have hnodup' : (rest.map Slot.name).Nodup := by
      rw [List.map_cons] at hnodup
      exact hnodup.of_cons
    by_cases hm : isManagedName s.name
    · by_cases hc : countInputSlots (s :: rest) ≤ MIN_INPUT_SLOTS
      · exfalso
        obtain ⟨sl, hmem, hname, _⟩ := hin
        refine hrem sl ?_ hname
        simp only [shrinkGo, hm, Bool.not_true, Bool.false_eq_true, if_false,
          if_pos hc]
        exact hmem
      · by_cases hl : s.link.isSome
        · exfalso
          obtain ⟨sl, hmem, hname, _⟩ := hin
          refine hrem sl ?_ hname
          simp only [shrinkGo, hm, Bool.not_true, Bool.false_eq_true, if_false,
            if_neg hc, if_pos hl]
          exact hmem
        · simp only [shrinkGo, hm, Bool.not_true, Bool.false_eq_true, if_false,
            if_neg hc, if_neg hl] at hrem ⊢
          obtain ⟨sl, hmem, hname, hlabel, hne⟩ := hin
          rcases List.mem_cons.mp hmem with heq | hmemr
          · -- the head is the slot named X: its removal writes the cache entry
            subst heq
            have hnoX : ∀ t ∈ rest, t.name ≠ X := by
              intro t hmt hteq
              rw [List.map_cons, List.nodup_cons] at hnodup
              exact hnodup.1 (hname ▸ hteq ▸ List.mem_map_of_mem Slot.name hmt)
            rw [shrinkGo_cache_unchanged rest _ X hnoX]
            rw [hname, hlabel]
            show lookupKey (if L ≠ "" then setKey c X L else c) X = some L
            rw [if_pos hne]
            exact lookupKey_setKey_self c X L
          · -- the slot named X sits deeper; the head's write uses another key
            exact ih _ X L hnodup' ⟨sl, hmemr, hname, hlabel, hne⟩ hrem
    · simp only [shrinkGo, hm, Bool.not_false, if_true] at hrem ⊢
      obtain ⟨sl, hmem, hname, hlabel, hne⟩ := hin
      rcases List.mem_cons.mp hmem with heq | hmemr
      · exfalso
        subst heq
        exact hrem sl (List.mem_cons_self _ _) hname
      · exact ih c X L hnodup' ⟨sl, hmemr, hname, hlabel, hne⟩
          (fun t ht => hrem t (List.mem_cons_of_mem s ht))

theorem restoredLabel_of_lookup (c : List (String × String)) (X L : String)
    (h : lookupKey c X = some L) (hne : L ≠ "") : restoredLabel c X = some L := by
  unfold restoredLabel
  rw [h]
  dsimp only
  rw [if_pos hne]

/-! ## Reorder-integrity machinery -/

theorem renameGo_data (l : List Slot) :
    ∀ k, (renameGo l k).1.map slotData = l.map slotData := by
  induction l with
  | nil => intro k; rfl
  | cons s rest ih =>
    intro k
    by_cases hs : isManagedName s.name
    · simp only [renameGo, hs, if_true, List.map_cons]
      rw [ih (k + 1)]
      rfl
    · simp only [renameGo, hs, Bool.false_eq_true, if_false, List.map_cons]
      rw [ih k]

theorem renameGo_names (l : List Slot) :
    ∀ k, k + countInputSlots l ≤ 100 →
      ((renameGo l k).1.filter fun s => isManagedName s.name).map Slot.name =
        (List.range' k (countInputSlots l)).map mkInputName := by
  induction l with
  | nil =>
    intro k _
    rfl
  | cons s rest ih =>
    intro k hk
    by_cases hs : isManagedName s.name
    · have hcnt : countInputSlots (s :: rest) = countInputSlots rest + 1 := by
        rw [countInputSlots_cons, if_pos hs]
      have hkm : isManagedName (mkInputName k) = true :=
        isManagedName_mkInputName (by omega)
      simp only [renameGo, hs, if_true]
      rw [@List.filter_cons_of_pos _ (fun s : Slot => isManagedName s.name) _ _ hkm,
        List.map_cons, hcnt, List.range'_succ, List.map_cons]
      rw [ih (k + 1) (by omega)]
    · have hcnt : countInputSlots (s :: rest) = countInputSlots rest := by
        rw [countInputSlots_cons, if_neg hs]
        omega
      simp only [renameGo, hs, Bool.false_eq_true, if_false]
      rw [@List.filter_cons_of_neg _ (fun s : Slot => isManagedName s.name) _ _ (by simpa using hs),
        hcnt]
      exact ih k (by omega)

theorem foldl_setKey_preserve (entries : List (String × String)) (f : String → String) :
    ∀ acc X, (∀ kv ∈ entries, f kv.1 ≠ X) →
      lookupKey (entries.foldl (fun a kv => setKey a (f kv.1) kv.2) acc) X =
        lookupKey acc X := by
  induction entries with
  | nil => intro acc X _; rfl
  | cons kv rest ih =>
    intro acc X hne
    rw [List.foldl_cons, ih _ X (fun t ht => hne t (List.mem_cons_of_mem kv ht))]
    exact lookupKey_setKey_ne acc X (f kv.1) kv.2 (hne kv (List.mem_cons_self kv rest))

theorem foldl_setKey_lookup (entries : List (String × String)) (f : String → String) :
    ∀ acc k v, ((entries.map fun kv => f kv.1).Nodup) →
      lookupKey entries k = some v →
      lookupKey (entries.foldl (fun a kv => setKey a (f kv.1) kv.2) acc) (f k) = some v := by
  induction entries with
  | nil => intro acc k v _ h; exact absurd h (by simp [lookupKey])
  | cons kv rest ih =>
    intro acc k v hnodup h
    rw [List.map_cons, List.nodup_cons] at hnodup
    rw [List.foldl_cons]
    by_cases hk : kv.1 = k
    · have hv : kv.2 = v := by
        rw [lookupKey, if_pos hk] at h
        injection h
      subst hk
      subst hv
      rw [foldl_setKey_preserve rest f _ (f kv.1)
        (fun t ht hteq => hnodup.1 (hteq ▸ List.mem_map_of_mem (fun kv => f kv.1) ht))]
      exact lookupKey_setKey_self acc (f kv.1) kv.2
    · rw [lookupKey, if_neg hk] at h
      exact ih _ k v hnodup.2 h

theorem rekeyCache_lookup (cache remap : List (String × String))
    (hnodup : (cache.map fun kv => (lookupKey remap kv.1).getD kv.1).Nodup) :
    ∀ k v, lookupKey cache k = some v →
      lookupKey (rekeyCache cache remap) ((lookupKey remap k).getD k) = some v := by
  intro k v h
  unfold rekeyCache
  by_cases he : remap.isEmpty
  · rw [if_pos he]
    have h0 : remap = [] := by simpa [List.isEmpty_iff] using he
    subst h0
    show lookupKey cache ((none : Option String).getD k) = some v
    exact h
  · rw [if_neg he]
    exact foldl_setKey_lookup cache (fun s => (lookupKey remap s).getD s) [] k v hnodup h

theorem lookupAssoc_setLinkTarget_self (links : List (Nat × LinkRec)) (lid i : Nat)
    (L : LinkRec) (h : lookupAssoc links lid = some L) :
    lookupAssoc (setLinkTarget links lid i) lid = some { L with target_slot := i } := by
  induction links with
  | nil => simp [lookupAssoc] at h
  | cons kv rest ih =>
    obtain ⟨k0, L0⟩ := kv
    unfold setLinkTarget at ih ⊢
    rw [List.map_cons]
    by_cases hk : k0 = lid
    · subst hk
      simp only [lookupAssoc, if_pos rfl] at h
      injection h with h'
      subst h'
      simp only [if_pos rfl]
      simp [lookupAssoc]
    · simp only [lookupAssoc, if_neg hk] at h
      simp only [if_neg hk]
      simp [lookupAssoc, hk, ih h]

theorem lookupAssoc_setLinkTarget_ne (links : List (Nat × LinkRec)) (lid lid' i : Nat)
    (h : lid' ≠ lid) :
    lookupAssoc (setLinkTarget links lid' i) lid = lookupAssoc links lid := by
  induction links with
  | nil => rfl
  | cons kv rest ih =>
    obtain ⟨k0, L0⟩ := kv
    unfold setLinkTarget at ih ⊢
    rw [List.map_cons]
    by_cases hk : k0 = lid'
    · subst hk
      simp only [if_pos rfl]
      simp [lookupAssoc, if_neg h, ih, Ne.symm h]
    · simp only [if_neg hk]
      by_cases h2 : k0 = lid
      · simp [lookupAssoc, hk, h2, ih]
      · simp [lookupAssoc, hk, h2, ih]

theorem patchStep_none (acc : List (Nat × LinkRec)) (p : Nat × Slot)
    (h : p.2.link = none) : patchStep acc p = acc := by
  unfold patchStep
  rw [h]

theorem patchStep_some (acc : List (Nat × LinkRec)) (p : Nat × Slot) (lid : Nat)
    (h : p.2.link = some lid) : patchStep acc p = setLinkTarget acc lid p.1 := by
  unfold patchStep
  rw [h]

theorem patchAux_preserve (l : List Slot) :
    ∀ n acc lid, (∀ lid' ∈ l.filterMap Slot.link, lid' ≠ lid) →
      lookupAssoc ((List.enumFrom n l).foldl patchStep acc) lid = lookupAssoc acc lid := by
  induction l with
  | nil => intro n acc lid _; rfl
  | cons s rest ih =>
    intro n acc lid hne
    rw [List.enumFrom_cons, List.foldl_cons]
    have hrest : ∀ lid' ∈ rest.filterMap Slot.link, lid' ≠ lid := by
      intro lid' hmem
      refine hne lid' ?_
      rw [List.filterMap_cons]
      cases s.link with
      | none => exact hmem
      | some lid0 => exact List.mem_cons_of_mem lid0 hmem
    rw [ih (n + 1) _ lid hrest]
    cases hsl : s.link with
    | none => rw [patchStep_none _ _ hsl]
    | some lid0 =>
      rw [patchStep_some _ _ lid0 hsl]
      have hne0 : lid0 ≠ lid := by
        refine hne lid0 ?_
        rw [List.filterMap_cons, hsl]
        exact List.mem_cons_self lid0 _
      exact lookupAssoc_setLinkTarget_ne acc lid lid0 n hne0

theorem patchAux_lookup (l : List Slot) :
    ∀ n acc j sl lid L, (l.filterMap Slot.link).Nodup →
      l.get? j = some sl → sl.link = some lid → lookupAssoc acc lid = some L →
      lookupAssoc ((List.enumFrom n l).foldl patchStep acc) lid =
        some { L with target_slot := n + j } := by
  induction l with
  | nil => intro n acc j sl lid L _ hj _ _; simp at hj
  | cons s rest ih =>
    intro n acc j sl lid L hnodup hj hlid hacc
    rw [List.enumFrom_cons, List.foldl_cons]
    cases j with
    | zero =>
      simp only [List.get?_cons_zero, Option.some.injEq] at hj
      subst hj
      have hstep : patchStep acc (n, s) = setLinkTarget acc lid n :=
        patchStep_some _ _ lid hlid
      rw [hstep]
      have hpres : ∀ lid' ∈ rest.filterMap Slot.link, lid' ≠ lid := by
        intro lid' hmem hteq
        rw [List.filterMap_cons, hlid] at hnodup
        rw [List.nodup_cons] at hnodup
        exact hnodup.1 (hteq ▸ hmem)
      rw [patchAux_preserve rest (n + 1) _ lid hpres]
      rw [Nat.add_zero]
      exact lookupAssoc_setLinkTarget_self acc lid n L hacc
    | succ j' =>
      simp only [List.get?_cons_succ] at hj
      have hnodup' : (rest.filterMap Slot.link).Nodup := by
        rw [List.filterMap_cons] at hnodup
        cases hsl : s.link with
        | none => rwa [hsl] at hnodup
        | some lid0 =>
          rw [hsl, List.nodup_cons] at hnodup
          exact hnodup.2
      have hacc1 : lookupAssoc (patchStep acc (n, s)) lid = some L := by
        cases hsl : s.link with
        | none => rw [patchStep_none _ _ hsl]; exact hacc
        | some lid0 =>
          rw [patchStep_some _ _ lid0 hsl]
          have hne0 : lid0 ≠ lid := by
            intro hteq
            rw [List.filterMap_cons, hsl, List.nodup_cons] at hnodup
            refine hnodup.1 ?_
            rw [hteq]
            refine List.mem_filterMap.mpr ⟨sl, ?_, hlid⟩
            exact List.get?_mem hj
          rw [lookupAssoc_setLinkTarget_ne acc lid lid0 n hne0]
          exact hacc
      have harith : n + 1 + j' = n + (j' + 1) := by omega
      have := ih (n + 1) (patchStep acc (n, s)) j' sl lid L hnodup' hj hlid hacc1
      rw [this, harith]

/-- The entry point of the step-5 lemma: after `patchTargets`, the link of
    the input sitting at index `j` records `target_slot = j`. -/
theorem patchTargets_lookup (links : List (Nat × LinkRec)) (inputs : List Slot)
    (j : Nat) (sl : Slot) (lid : Nat) (L : LinkRec)
    (hnodup : (inputs.filterMap Slot.link).Nodup)
    (hj : inputs.get? j = some sl) (hlid : sl.link = some lid)
    (hL : lookupAssoc links lid = some L) :
    lookupAssoc (patchTargets links inputs) lid = some { L with target_slot := j } := by
  unfold patchTargets
  rw [List.enum_eq_enumFrom]
  have := patchAux_lookup inputs 0 links j sl lid L hnodup hj hlid hL
  rw [this, Nat.zero_add]

theorem map_eraseIdx_comm {α β : Type} (f : α → β) (l : List α) :
    ∀ n, (l.eraseIdx n).map f = (l.map f).eraseIdx n := by
  induction l with
  | nil => intro n; rfl
  | cons a rest ih =>
    intro n
    cases n with
    | zero => rfl
    | succ m =>
      show (a :: rest.eraseIdx m).map f = _
      rw [List.map_cons, ih m]
      rfl

theorem map_insertIdx_comm {α β : Type} (f : α → β) (x : α) (l : List α) :
    ∀ n, (l.insertIdx n x).map f = (l.map f).insertIdx n (f x) := by
  induction l with
  | nil =>
    intro n
    cases n with
    | zero => rfl
    | succ m => rfl
  | cons a rest ih =>
    intro n
    cases n with
    | zero => rfl
    | succ m =>
      rw [List.insertIdx_succ_cons, List.map_cons, ih m, List.map_cons,
        List.insertIdx_succ_cons]

/-! ## Sequential-mode scan characterization -/

theorem scanRange_some (c : List (Nat × String)) :
    ∀ (len a : Nat) (v : String) (i : Nat),
      ((List.range' a len).findSome? fun j =>
        (lookupConnected c j).map fun v => (v, j)) = some (v, i) →
      lookupConnected c i = some v ∧ a ≤ i ∧ i < a + len ∧
        ∀ j, a ≤ j → j < i → lookupConnected c j = none := by
  intro len
  induction len with
  | zero =>
    intro a v i h
    simp [List.findSome?] at h
  | succ len ih =>
    intro a v i h
    rw [List.range'_succ, List.findSome?_cons] at h
    cases hfa : lookupConnected c a with
    | some va =>
      rw [hfa] at h
      simp only [Option.map_some'] at h
      injection h with h'
      injection h' with hv hi
      subst hv
      subst hi
      refine ⟨hfa, le_refl _, by omega, fun j h1 h2 => by omega⟩
    | none =>
      rw [hfa] at h
      simp only [Option.map_none'] at h
      obtain ⟨hlook, hge, hlt, hbetween⟩ := ih (a + 1) v i h
      refine ⟨hlook, by omega, by omega, fun j h1 h2 => ?_⟩
      by_cases hja : j = a
      · rw [hja]; exact hfa
      · exact hbetween j (by omega) h2

theorem scanRange_none (c : List (Nat × String)) :
    ∀ (len a : Nat),
      ((List.range' a len).findSome? fun j =>
        (lookupConnected c j).map fun v => (v, j)) = none →
      ∀ j, a ≤ j → j < a + len → lookupConnected c j = none := by
  intro len
  induction len with
  | zero => intro a _ j h1 h2; omega
  | succ len ih =>
    intro a h j h1 h2
    rw [List.range'_succ, List.findSome?_cons] at h
    cases hfa : lookupConnected c a with
    | some va => rw [hfa] at h; simp at h
    | none =>
      rw [hfa] at h
      simp only [Option.map_none'] at h
      by_cases hja : j = a
      · rw [hja]; exact hfa
      · exact ih (a + 1) h j (by omega) (by omega)

/-! ## Claim theorems -/

/-- C1 (counterexample): a freshly created node — three unconnected managed
    slots — is a steady state of `stabilize` (a second pass changes
    nothing), yet its slot sequence ends in **three** unconnected slots, not
    "exactly one"; growth is not "catching up" since repeated passes leave
    the state fixed.  This refutes "at most one trailing slot is
    unconnected" for reachable steady states at the `MIN_INPUT_SLOTS`
    floor. -/
theorem trailing_buffer_counterexample :
    trailingUnconnected (stabilize initialNode).inputs = 3 ∧
    stabilize (stabilize initialNode) = stabilize initialNode ∧
    countInputSlots (stabilize initialNode).inputs = MIN_INPUT_SLOTS := by
  decide

/-- C1 (amended): after a stabilize pass on a node with at least one managed
    slot and two-digit naming room, the managed slot sequence ends in at
    least one unconnected slot, and in more than one only when the managed
    count is at (or below) the `MIN_INPUT_SLOTS` floor. -/
theorem stabilize_trailing_buffer (st : NodeState)
    (h1 : 1 ≤ countInputSlots st.inputs)
    (h98 : getHighestInputNumber st.inputs ≤ 98) :
    1 ≤ trailingUnconnected (stabilize st).inputs ∧
    (1 < trailingUnconnected (stabilize st).inputs →
      countInputSlots (stabilize st).inputs ≤ MIN_INPUT_SLOTS) :=
  stabilize_trailing st h1 h98

theorem stabilize_trailing_buffer_witness :
    1 ≤ trailingUnconnected (stabilize connectedNode).inputs ∧
    (1 < trailingUnconnected (stabilize connectedNode).inputs →
      countInputSlots (stabilize connectedNode).inputs ≤ MIN_INPUT_SLOTS) :=
  stabilize_trailing_buffer connectedNode (by decide) (by decide)

/-- C2: starting from any state with at least `MIN_INPUT_SLOTS` (3) managed
    slots, no sequence of stabilize passes and slot moves ever brings the
    managed count below 3: the shrink loop stops before removal would cross
    the floor, the grow step only adds, and a move only permutes and
    renumbers. -/
theorem slot_floor_invariant (st : NodeState) (ops : List NodeOp)
    (h : MIN_INPUT_SLOTS ≤ countInputSlots st.inputs) :
    MIN_INPUT_SLOTS ≤ countInputSlots (runOps st ops).inputs := by
  induction ops generalizing st with
  | nil => exact h
  | cons op rest ih =>
    show MIN_INPUT_SLOTS ≤ countInputSlots (runOps (applyOp st op) rest).inputs
    apply ih
    cases op with
    | stab => exact stabilize_count_ge st h
    | move fromIdx toIdx => exact move_count_ge st [] fromIdx toIdx h

theorem slot_floor_invariant_witness :
    MIN_INPUT_SLOTS ≤ countInputSlots
      (runOps connectedNode [.stab, .move 2 0, .stab, .move 0 3, .stab]).inputs :=
  slot_floor_invariant connectedNode [.stab, .move 2 0, .stab, .move 0 3, .stab]
    (by decide)

/-- C3 (spec-modelled): the sequential-mode scan resolves over the full
    contiguous slot range.  Whenever it returns `(v, i)`: `i` is connected
    with value `v`; if `i` lies after the attempted position `p`, every
    physical position strictly between `p` and `i` — including disconnected
    gaps — is unconnected; if the scan wrapped (`i ≤ p`), every position
    after `p` up to the end of the range is unconnected and so is every
    position before `i`.  In particular, with connected = {1 ↦ v1, 3 ↦ v3}
    and attempted target 1, the scan skips the disconnected position 2 and
    returns slot 3's value with index 3. -/
theorem sequentialResolve_gap_aware :
    (∀ (c : List (Nat × String)) (p : Nat) (v : String) (i : Nat),
      sequentialResolve c p = some (v, i) →
        lookupConnected c i = some v ∧
        (p < i → i ≤ max (maxConnectedKey c) p ∧
          ∀ j, p < j → j < i → lookupConnected c j = none) ∧
        (i ≤ p → 1 ≤ i ∧
          (∀ j, p < j → j ≤ max (maxConnectedKey c) p → lookupConnected c j = none) ∧
          (∀ j, 1 ≤ j → j < i → lookupConnected c j = none))) ∧
    (∀ v1 v3 : String, sequentialResolve [(1, v1), (3, v3)] 1 = some (v3, 3)) := by
  constructor
  · intro c p v i h
    unfold sequentialResolve at h
    rw [List.findSome?_append] at h
    have hpn : p ≤ max (maxConnectedKey c) p := le_max_right _ _
    cases hA : (List.range' (p + 1) (max (maxConnectedKey c) p - p)).findSome?
        (fun j => (lookupConnected c j).map fun v => (v, j)) with
    | some pair =>
      rw [hA] at h
      simp only [Option.or_some] at h
      injection h with h'
      subst h'
      obtain ⟨hlook, hge, hlt, hbetween⟩ := scanRange_some c _ _ v i hA
      refine ⟨hlook, fun _ => ⟨by omega, fun j h1 h2 => hbetween j (by omega) h2⟩,
        fun hle => absurd hle (by omega)⟩
    | none =>
      rw [hA] at h
      simp only [Option.none_or] at h
      obtain ⟨hlook, hge, hlt, hbetween⟩ := scanRange_some c _ _ v i h
      have hnone := scanRange_none c _ _ hA
      refine ⟨hlook, fun hgt => absurd hgt (by omega), fun _ =>
        ⟨by omega, fun j h1 h2 => hnone j (by omega) (by omega),
         fun j h1 h2 => hbetween j (by omega) h2⟩⟩
  · intro v1 v3
    rfl

theorem sequentialResolve_gap_aware_witness :
    lookupConnected [(1, "a"), (3, "c")] 3 = some "c" :=
  (sequentialResolve_gap_aware.1 [(1, "a"), (3, "c")] 1 "c" 3
    (sequentialResolve_gap_aware.2 "a" "c")).1

/-- C4: label round-trip.  If the shrink phase removes the (unique) slot
    named `X` carrying a truthy user label `L`, the label cache afterwards
    maps `X` to `L`; and whenever a grow phase later fires on a state whose
    cache maps `X` to `L` and whose next buffer name is `X`, the recreated
    slot carries exactly the label `L`. -/
theorem label_roundtrip (st : NodeState) (X L : String)
    (hnodup : (st.inputs.map Slot.name).Nodup)
    (hin : ∃ sl ∈ st.inputs, sl.name = X ∧ sl.label = some L ∧ L ≠ "")
    (hremoved : ∀ sl ∈ (removeUnusedInputsFromEnd st).inputs, sl.name ≠ X) :
    lookupKey (removeUnusedInputsFromEnd st).labelCache X = some L ∧
    (∀ t : NodeState, lookupKey t.labelCache X = some L →
      (∃ s', t.inputs.reverse.find? (fun s => isManagedName s.name) = some s' ∧
        s'.link.isSome = true) →
      mkInputName (getHighestInputNumber t.inputs + 1) = X →
      (addBufferInputIfNeeded t).inputs = t.inputs ++ [⟨X, some L, none, false⟩]) := by
  constructor
  · show lookupKey (shrinkGo st.inputs.reverse st.labelCache).2 X = some L
    apply shrinkGo_cache_of_removed st.inputs.reverse st.labelCache X L
    · rw [List.map_reverse]
      exact List.nodup_reverse.mpr hnodup
    · obtain ⟨sl, hmem, hrest⟩ := hin
      exact ⟨sl, List.mem_reverse.mpr hmem, hrest⟩
    · intro sl hmem
      refine hremoved sl ?_
      show sl ∈ (shrinkGo st.inputs.reverse st.labelCache).1.reverse
      exact List.mem_reverse.mpr hmem
  · rintro t hc ⟨s', hfind, hlink⟩ hX
    have hne : L ≠ "" := hin.choose_spec.2.2.2
    rw [grow_of_connected t s' hfind hlink]
    show t.inputs ++ [newBufferSlot t] = _
    have hnew : newBufferSlot t = ⟨X, some L, none, false⟩ := by
      unfold newBufferSlot
      rw [hX]
      rw [restoredLabel_of_lookup t.labelCache X L hc hne]
    rw [hnew]

theorem label_roundtrip_witness :
    lookupKey (removeUnusedInputsFromEnd labeledNode).labelCache "input_04" =
      some "LoRA Style" ∧
    (addBufferInputIfNeeded (removeUnusedInputsFromEnd labeledNode)).inputs =
      (removeUnusedInputsFromEnd labeledNode).inputs ++
        [⟨"input_04", some "LoRA Style", none, false⟩] := by
  have h := label_roundtrip labeledNode "input_04" "LoRA Style" (by decide)
    ⟨⟨"input_04", some "LoRA Style", none, false⟩, by decide⟩ (by decide)
  exact ⟨h.1, h.2 (removeUnusedInputsFromEnd labeledNode) h.1 ⟨⟨"input_03", none, some 3, false⟩,
    by decide, by decide⟩ (by decide)⟩

/-- C5 (counterexample): at the two-digit ceiling (highest managed slot
    `input_99` connected) stabilize is *not* idempotent: each pass appends a
    fresh unmanaged `input_100` slot, so the second call's slot sequence
    differs from the first's. -/
theorem stabilize_idem_counterexample :
    ¬ (stabilize (stabilize ceilingNode) = stabilize ceilingNode) := by
  decide

/-- C5 (amended): for every node state whose highest managed input number is
    at most 98 — every state where the grow step appends a managed slot —
    two consecutive stabilize passes with no intervening event leave the
    entire state (slot names, labels, links, watch flags, label cache, name
    map, dropdown options and value) identical after the second call. -/
theorem stabilize_idempotent (st : NodeState)
    (h98 : getHighestInputNumber st.inputs ≤ 98) :
    stabilize (stabilize st) = stabilize st :=
  stabilize_idem st h98

theorem stabilize_idempotent_witness :
    stabilize (stabilize connectedNode) = stabilize connectedNode :=
  stabilize_idempotent connectedNode (by decide)

/-- C6 (counterexample): the dropdown value `"B"` — the display label of the
    disconnected slot `input_02`, which `updateSelectWidget` deliberately
    keeps — is not a sentinel, yet `serializeValue` passes it through
    verbatim because the rebuilt name map only covers currently-connected
    slots; the execution engine receives a display label, not an internal
    identity. -/
theorem serializeValue_stale_counterexample :
    serializeValue (buildConnectedInputInfo staleNode.inputs).2 "B" = "B" ∧
    getInputLabel ⟨"input_02", some "B", none, true⟩ = "B" ∧
    isManagedName "B" = false ∧
    "B" ≠ NONE_SELECTION ∧ "B" ≠ NO_CONNECTIONS ∧
    (updateSelectWidget staleNode).selValue = "B" := by
  decide

/-- C6 (amended): `serializeValue` translates a dropdown value through the
    name map when the value is a currently-connected slot's display label,
    passes both sentinels through unchanged (and neither sentinel matches
    the managed-identity pattern), and passes any unmapped value — such as
    a stale display label — through unchanged. -/
theorem serializeValue_boundary (m : List (String × String)) (v n : String) :
    (serializeValue m NONE_SELECTION = NONE_SELECTION) ∧
    (serializeValue m NO_CONNECTIONS = NO_CONNECTIONS) ∧
    (isManagedName NONE_SELECTION = false ∧ isManagedName NO_CONNECTIONS = false) ∧
    (v ≠ NONE_SELECTION → v ≠ NO_CONNECTIONS → lookupKey m v = some n → n ≠ "" →
      serializeValue m v = n) ∧
    (v ≠ NONE_SELECTION → v ≠ NO_CONNECTIONS → lookupKey m v = none →
      serializeValue m v = v) := by
  refine ⟨?_, ?_, by decide, ?_, ?_⟩
  · unfold serializeValue
    rw [if_pos (by simp)]
  · unfold serializeValue
    rw [if_pos (by simp)]
  · intro h1 h2 h3 h4
    unfold serializeValue
    rw [if_neg (by simp [h1, h2]), h3]
    dsimp only
    rw [if_pos h4]
  · intro h1 h2 h3
    unfold serializeValue
    rw [if_neg (by simp [h1, h2]), h3]

theorem serializeValue_boundary_witness :
    serializeValue [("A", "input_01")] "A" = "input_01" ∧
    serializeValue [("A", "input_01")] "B" = "B" :=
  ⟨(serializeValue_boundary [("A", "input_01")] "A" "input_01").2.2.2.1
      (by decide) (by decide) (by decide) (by decide),
   (serializeValue_boundary [("A", "input_01")] "B" "input_01").2.2.2.2
      (by decide) (by decide) (by decide)⟩

/-- C7: reorder integrity for `moveInputSlot`'s core (steps 2-5, before the
    re-triggered stabilize).  For a valid source index (and two-digit
    room): (1) the positional payloads (label/link/watch) are relocated by
    splice — remove then insert — semantics; (2) every managed slot's
    identity is renumbered sequentially, 1-based, by its new managed
    position; (3) every label-cache entry is re-keyed through the
    old-to-new renaming (assuming the renaming does not collide on the
    cache's keys, which holds for distinct slot names); (4) every connected
    input's link record has its `target_slot` set to the input's new index
    (assuming the inputs' link ids are distinct, as the host guarantees). -/
theorem moveInputSlot_integrity (st : NodeState) (links : List (Nat × LinkRec))
    (fromIdx toIdx : Nat) (x : Slot)
    (hx : st.inputs.get? fromIdx = some x)
    (hcnt : countInputSlots st.inputs ≤ 99) :
    ((moveInputSlotCore st links fromIdx toIdx).1.inputs.map slotData =
      ((st.inputs.map slotData).eraseIdx fromIdx).insertIdx
        (min toIdx (st.inputs.eraseIdx fromIdx).length) (slotData x)) ∧
    ((((moveInputSlotCore st links fromIdx toIdx).1.inputs).filter
        fun s => isManagedName s.name).map Slot.name =
      (List.range' 1 (countInputSlots st.inputs)).map mkInputName) ∧
    (∀ k v, (st.labelCache.map fun kv =>
        (lookupKey (renameGo (splicedInputs st fromIdx toIdx x) 1).2 kv.1).getD kv.1).Nodup →
      lookupKey st.labelCache k = some v →
      lookupKey (moveInputSlotCore st links fromIdx toIdx).1.labelCache
        ((lookupKey (renameGo (splicedInputs st fromIdx toIdx x) 1).2 k).getD k) = some v) ∧
    (∀ j sl lid L,
      (((moveInputSlotCore st links fromIdx toIdx).1.inputs).filterMap Slot.link).Nodup →
      ((moveInputSlotCore st links fromIdx toIdx).1.inputs).get? j = some sl →
      sl.link = some lid → lookupAssoc links lid = some L →
      lookupAssoc (moveInputSlotCore st links fromIdx toIdx).2 lid =
        some { L with target_slot := j }) := by
  have hcore_inputs : (moveInputSlotCore st links fromIdx toIdx).1.inputs =
      (renameGo (splicedInputs st fromIdx toIdx x) 1).1 := by
    unfold moveInputSlotCore
    rw [hx]
  have hcore_cache : (moveInputSlotCore st links fromIdx toIdx).1.labelCache =
      rekeyCache st.labelCache (renameGo (splicedInputs st fromIdx toIdx x) 1).2 := by
    unfold moveInputSlotCore
    rw [hx]
  have hcore_links : (moveInputSlotCore st links fromIdx toIdx).2 =
      patchTargets links (renameGo (splicedInputs st fromIdx toIdx x) 1).1 := by
    unfold moveInputSlotCore
    rw [hx]
  have hperm : (splicedInputs st fromIdx toIdx x).Perm st.inputs :=
    (perm_insertIdx x _ (st.inputs.eraseIdx fromIdx) (min_le_right _ _)).trans
      (perm_eraseIdx st.inputs fromIdx x hx)
  have hcount : countInputSlots (splicedInputs st fromIdx toIdx x) =
      countInputSlots st.inputs := hperm.countP_eq _
  refine ⟨?_, ?_, ?_, ?_⟩
  · rw [hcore_inputs, renameGo_data]
    unfold splicedInputs
    rw [map_insertIdx_comm, map_eraseIdx_comm]
  · rw [hcore_inputs, renameGo_names _ 1 (by omega), hcount]
  · intro k v hnodup hk
    rw [hcore_cache]
    exact rekeyCache_lookup st.labelCache _ hnodup k v hk
  · intro j sl lid L hnodup hj hlid hL
    rw [hcore_inputs] at hnodup hj
    rw [hcore_links]
    exact patchTargets_lookup links _ j sl lid L hnodup hj hlid hL

theorem moveInputSlot_integrity_witness :
    (((moveInputSlotCore moveNode moveLinks 2 0).1.inputs).filter
        fun s => isManagedName s.name).map Slot.name =
      (List.range' 1 (countInputSlots moveNode.inputs)).map mkInputName ∧
    lookupKey (moveInputSlotCore moveNode moveLinks 2 0).1.labelCache
      ((lookupKey (renameGo (splicedInputs moveNode 2 0
        ⟨"input_03", some "C", some 3, true⟩) 1).2 "input_03").getD "input_03") =
      some "OLD" ∧
    lookupAssoc (moveInputSlotCore moveNode moveLinks 2 0).2 3 =
      some ⟨9, 2, 5, 0⟩ := by
  have h := moveInputSlot_integrity moveNode moveLinks 2 0
    ⟨"input_03", some "C", some 3, true⟩ (by decide) (by decide)
  refine ⟨h.2.1, h.2.2.1 "input_03" "OLD" (by decide) (by decide), ?_⟩
  exact h.2.2.2 0 ⟨"input_01", some "C", some 3, true⟩ 3 ⟨9, 2, 5, 2⟩
    (by decide) (by decide) (by decide) (by decide)

/-- The first step of the type walk when the direct source's declared output
    type is concrete: the walk returns it immediately. -/
theorem followAux_found (g : Graph) (f : Nat) (node : GNode) (s : Nat) (v : List Nat)
    (lid : Nat) (L : LinkRec) (src : GNode) (ty : String)
    (h1 : node.inputs.get? s = some (some lid)) (h2 : v.contains lid = false)
    (h3 : lookupAssoc g.links lid = some L)
    (h4 : lookupAssoc g.nodes L.origin_id = some src)
    (h5 : src.outputs.get? L.origin_slot = some ty) (h6 : ty ≠ "") (h7 : ty ≠ "*") :
    followAux g (f + 1) node s v = (ty, lid :: v) := by
  simp only [followAux, h1, h2, h3, h4, h5, Bool.false_eq_true, if_false]
  rw [if_pos (by simp [h6, h7])]

/-- C8: the bounded backward type walk.  (1) Chained through two
    wildcard-output nodes to a concretely-typed producer at depth 3, the
    walk returns that concrete type; (2) on a cyclic chain of all-wildcard
    nodes it returns the wildcard sentinel (the per-call visited set stops
    the loop; the embedding is total by construction, fuelled by
    `TYPE_WALK_MAX_DEPTH - depth`); (3) at the depth cap the walk stops
    immediately with the wildcard sentinel; (4) whenever the direct source
    of a slot declares a concrete type and the walk has budget, that type
    is returned. -/
theorem followConnectionUntilType_walk :
    ((followConnectionUntilType chainGraph chainStart 0 [] 0).1 = "MODEL") ∧
    ((followConnectionUntilType cycleGraph cycleStart 0 [] 0).1 = "*") ∧
    (∀ (g : Graph) (node : GNode) (slotIndex : Nat) (visited : List Nat),
      followConnectionUntilType g node slotIndex visited TYPE_WALK_MAX_DEPTH =
        ("*", visited)) ∧
    (∀ (g : Graph) (node : GNode) (s d : Nat) (v : List Nat) (lid : Nat)
        (L : LinkRec) (src : GNode) (ty : String),
      node.inputs.get? s = some (some lid) → v.contains lid = false →
      lookupAssoc g.links lid = some L → lookupAssoc g.nodes L.origin_id = some src →
      src.outputs.get? L.origin_slot = some ty → ty ≠ "" → ty ≠ "*" →
      d < TYPE_WALK_MAX_DEPTH →
      (followConnectionUntilType g node s v d).1 = ty) := by
  refine ⟨by rfl, by rfl, fun g node slotIndex visited => rfl, ?_⟩
  intro g node s d v lid L src ty h1 h2 h3 h4 h5 h6 h7 h8
  obtain ⟨f, hf⟩ : ∃ f, TYPE_WALK_MAX_DEPTH - d = f + 1 :=
    ⟨TYPE_WALK_MAX_DEPTH - d - 1, by unfold TYPE_WALK_MAX_DEPTH at *; omega⟩
  unfold followConnectionUntilType
  rw [hf, followAux_found g f node s v lid L src ty h1 h2 h3 h4 h5 h6 h7]

theorem followConnectionUntilType_walk_witness :
    (followConnectionUntilType chainGraph ⟨[some 12], ["*"]⟩ 0 [] 0).1 = "MODEL" :=
  followConnectionUntilType_walk.2.2.2 chainGraph ⟨[some 12], ["*"]⟩ 0 0 [] 12
    ⟨3, 0, 2, 0⟩ ⟨[], ["MODEL"]⟩ "MODEL" (by decide) (by decide) (by decide)
    (by decide) (by decide) (by decide) (by decide) (by decide)

/-- C9 (counterexample): a timer armed by `scheduleStabilize` just before
    the host removes the node still fires 64 ms later and runs `stabilize`
    on the destroyed node — main.js installs no node-destroy handler, and
    the `WeakMap` only scopes the map entry, not the armed `setTimeout`. -/
theorem timer_fires_after_destroy :
    (schedRun ⟨true, false, false⟩
      [.schedule, .destroy, .timeout]).firedWhileDead = true := by
  decide

/-- C9 (amended): destroying the node does not cancel the pending debounce
    timer (only a re-schedule or `moveInputSlot`'s explicit cancellation
    touch it); a timer pending at destruction subsequently fires on the
    dead node. -/
theorem destroy_does_not_cancel (s : SchedState) :
    ((schedStep s .destroy).timerPending = s.timerPending) ∧
    (s.timerPending = true →
      (schedRun s [.destroy, .timeout]).firedWhileDead = true) := by
  obtain ⟨a, p, f⟩ := s
  refine ⟨rfl, fun h => ?_⟩
  subst h
  simp [schedRun, schedStep]

theorem destroy_does_not_cancel_witness :
    (schedRun ⟨true, true, false⟩ [.destroy, .timeout]).firedWhileDead = true :=
  (destroy_does_not_cancel ⟨true, true, false⟩).2 rfl

/-- C10 (code_bug evaluation): with `input_99` connected (the documented
    growth ceiling), the grow step of `stabilize` appends a slot named
    `input_100`, which does not match `INPUT_SLOT_RE` and is therefore
    invisible to counting, shrinking, watching and the dropdown — the
    managed count stays 3 while an unmanaged slot has been added,
    contradicting the repository documentation's "appended (up to
    input_99)". -/
theorem grow_overflow_unmanaged :
    (stabilize ceilingNode).inputs.map Slot.name =
      ["input_97", "input_98", "input_99", "input_100"] ∧
    isManagedName "input_100" = false ∧
    countInputSlots (stabilize ceilingNode).inputs = MIN_INPUT_SLOTS := by
  decide

end DazzleSwitch
